import Mathlib

/-!
Verification of the uproot4 string-interpretation core
(src/uproot4/interpretation/strings.py): the byte-level string decoder
AsStrings.basket_array, the range stitcher AsStrings.final_array and the
StringArray container.  Shallow embedding: numpy arrays become lists, bytes
become Nat values below 256, machine integers become Nat/Int (the int32/int64
dtypes overflow only far beyond the magnitudes treated here), and raising an
exception becomes Except.error.
-/

set_option autoImplicit false

namespace Uproot

/-- Python slice l[a:b] for non-negative bounds, with the clamping semantics of
slicing. -/
def sliceL {α : Type} (l : List α) (a b : Nat) : List α := (l.drop a).take (b - a)

/-- Running sums: cumsums acc [x1, x2, ...] = [acc+x1, acc+x1+x2, ...], the
tail of numpy.cumsum with a carried accumulator. -/
def cumsums : Int → List Int → List Int
  | _, [] => []
  | acc, x :: xs => (acc + x) :: cumsums (acc + x) xs

/-- Offsets built from counts exactly as in basket_array lines 221-223:
offsets[0] = 0, numpy.cumsum(counts, out=offsets[1:]). -/
def offsetsOf (counts : List Int) : List Int := 0 :: cumsums 0 counts

/-- Temporary string column (class StringArray, lines 352-406): boundary
offsets plus packed content bytes. -/
structure StringArray where
  offsets : List Int
  content : List Nat
deriving DecidableEq

/-- Column of a list of strings: offsets are the cumulative lengths (the
decoder's counts array fed through offsetsOf), content their concatenation
(the decoder's outdata). -/
def column (ss : List (List Nat)) : StringArray :=
  ⟨offsetsOf (ss.map (fun s => (s.length : Int))), ss.flatten⟩

/-- StringArray.__iter__ (lines 401-406): the successive content[start:stop]
slices delimited by consecutive offsets. -/
def toStrings (sa : StringArray) : List (List Nat) :=
  (sa.offsets.zip sa.offsets.tail).map (fun ab => sliceL sa.content ab.1.toNat ab.2.toNat)

instance exceptDecEq {ε α : Type} [DecidableEq ε] [DecidableEq α] :
    DecidableEq (Except ε α)
  | .ok a, .ok b =>
    if h : a = b then .isTrue (by rw [h]) else .isFalse (by simp [h])
  | .ok _, .error _ => .isFalse (by simp)
  | .error _, .ok _ => .isFalse (by simp)
  | .error a, .error b =>
    if h : a = b then .isTrue (by rw [h]) else .isFalse (by simp [h])

/-- Big-endian unsigned 32-bit value of four bytes, struct.Struct(">I").unpack
(line 25). -/
def be32val (b1 b2 b3 b4 : Nat) : Nat := ((b1 * 256 + b2) * 256 + b3) * 256 + b4

/-- Failure modes of basket_array: truncated is the struct.error on a short
4-byte length read (lines 174 and 186), and is also what the strict record
decoders decodeRun15F and decodeRun4F report for any truncated final record;
valueError is the numpy ValueError when a short content slice that does not
have exactly one element fails to broadcast into its outdata target (lines 178
and 190); indexError is numpy fancy-indexing out of bounds (line 206);
assertion is the AssertionError on an unrecognized length_bytes mode (lines
195 and 210). -/
inductive DecodeError where
  | truncated
  | valueError
  | indexError
  | assertion
deriving DecidableEq

/-- One "1-5" length-prefix read (lines 171-175): one byte, escaped to a
4-byte big-endian length by the marker value 255; returns the declared size
and the number of prefix bytes consumed. -/
def readPrefix15 : List Nat → Except DecodeError (Nat × Nat)
  | [] => .error .truncated
  | b :: rest =>
    if b = 255 then
      match rest with
      | b1 :: b2 :: b3 :: b4 :: _ => .ok (be32val b1 b2 b3 b4, 5)
      | _ => .error .truncated
    else .ok (b, 1)

/-- Strict record-stream reading of the unindexed "1-5" loop (lines 167-180):
read the length prefix, slice the declared number of content bytes, continue
after them; the per-entry counts and outdata accumulation are recovered by
applying column to the result.  It reports every record whose declared size
exceeds the remaining bytes as an error.  The program itself raises ValueError
there (the short slice fails to broadcast into outdata) except when exactly
one content byte remains, in which case the shape-(1,) source broadcasts
silently; the line-faithful loop is uRunF readPrefix15 below, and
uBasket15_agree proves the two agree on every buffer this strict reading
accepts. -/
def decodeRun15F : Nat → List Nat → Except DecodeError (List (List Nat))
  | _, [] => .ok []
  | 0, _ :: _ => .error .truncated
  | fuel + 1, b :: rest =>
    if b = 255 then
      match rest with
      | b1 :: b2 :: b3 :: b4 :: rest4 =>
        if be32val b1 b2 b3 b4 ≤ rest4.length then
          (decodeRun15F fuel (rest4.drop (be32val b1 b2 b3 b4))).map
            (fun ss => rest4.take (be32val b1 b2 b3 b4) :: ss)
        else .error .truncated
      | _ => .error .truncated
    else
      if b ≤ rest.length then
        (decodeRun15F fuel (rest.drop b)).map (fun ss => rest.take b :: ss)
      else .error .truncated

/-- The loop with exactly enough fuel: every iteration consumes at least one
byte, so data.length iterations always reach the end of the buffer. -/
def decodeRun15 (data : List Nat) : Except DecodeError (List (List Nat)) :=
  decodeRun15F data.length data

/-- Strict record-stream reading of the unindexed "4" loop (lines 182-192),
same shape: the length is always the next four bytes big-endian; fewer than
four remaining bytes is a struct.error.  Like decodeRun15F this reports every
truncated final record as an error, while the program broadcasts silently
when exactly one content byte remains; the line-faithful loop is
uRunF readPrefix4 below, and uBasket4_agree proves agreement on every buffer
this strict reading accepts. -/
def decodeRun4F : Nat → List Nat → Except DecodeError (List (List Nat))
  | _, [] => .ok []
  | 0, _ :: _ => .error .truncated
  | fuel + 1, b1 :: b2 :: b3 :: b4 :: rest4 =>
    if be32val b1 b2 b3 b4 ≤ rest4.length then
      (decodeRun4F fuel (rest4.drop (be32val b1 b2 b3 b4))).map
        (fun ss => rest4.take (be32val b1 b2 b3 b4) :: ss)
    else .error .truncated
  | _ + 1, _ => .error .truncated

/-- The "4" loop with exactly enough fuel. -/
def decodeRun4 (data : List Nat) : Except DecodeError (List (List Nat)) :=
  decodeRun4F data.length data

/-- Per-record prefix sizes for the indexed "1-5" path (lines 205-206): one
byte, plus four more when the first record byte is 255. -/
def prefixSizes15 (data : List Nat) (starts0 : List Nat) : List Nat :=
  starts0.map (fun s => if data.getD s 0 = 255 then 5 else 1)

/-- Signed increments fed into the inclusion mask (lines 213-215): the
assignment mask[s] = 1 at every in-range content start, then
numpy.add.at(mask, stop, -1) at every in-range content stop. -/
def maskDelta (len : Nat) (starts stops : List Nat) (q : Nat) : Int :=
  (if q ∈ starts.filter (fun s => decide (s < len)) then 1 else 0)
    - ((stops.filter (fun s => decide (s < len))).count q : Int)

/-- Running mask over every byte position, numpy.cumsum(mask, out=mask)
(line 216). -/
def maskCums (len : Nat) (starts stops : List Nat) : List Int :=
  cumsums 0 ((List.range len).map (maskDelta len starts stops))

/-- Boolean-view selection data[mask.view(numpy.bool_)] (line 217): keep the
bytes whose running mask value is non-zero. -/
def boolSelect {α : Type} (l : List α) (m : List Int) : List α :=
  ((l.zip m).filter (fun xm => decide (xm.2 ≠ 0))).map Prod.fst

/-- Indexed decode path of basket_array (lines 200-229): content starts are
the record starts plus header_bytes plus the per-record prefix size, content
stops are the external record end boundaries; the content bytes are collected
through the inclusion mask and the counts are stop minus start.  In "1-5" mode
the prefix-size computation fancy-indexes data at every record start and
raises IndexError when one is out of range; "4" mode reads no data there. -/
def basketIndexed (lengthBytes : String) (headerBytes : Nat) (data : List Nat)
    (byteOffsets : List Nat) : Except DecodeError StringArray :=
  let starts0 := byteOffsets.dropLast.map (fun o => o + headerBytes)
  let stops := byteOffsets.tail
  let finish := fun (prefixes : List Nat) =>
    let starts := List.zipWith (fun s p => s + p) starts0 prefixes
    let data2 := boolSelect data (maskCums data.length starts stops)
    let counts := List.zipWith (fun (s t : Nat) => (t : Int) - (s : Int)) starts stops
    Except.ok (StringArray.mk (offsetsOf counts) data2)
  if lengthBytes = "1-5" then
    if starts0.all (fun s => decide (s < data.length)) then
      finish (prefixSizes15 data starts0)
    else .error .indexError
  else if lengthBytes = "4" then finish (starts0.map (fun _ => 4))
  else .error .assertion

/-- AsStrings.basket_array (lines 146-242), with the hook observers omitted:
without byte_offsets the sequential decode loop for the configured mode, with
byte_offsets the vectorized indexed path. -/
def basket_array (lengthBytes : String) (headerBytes : Nat) (data : List Nat)
    (byteOffsets : Option (List Nat)) : Except DecodeError StringArray :=
  match byteOffsets with
  | none =>
    if lengthBytes = "1-5" then (decodeRun15 data).map column
    else if lengthBytes = "4" then (decodeRun4 data).map column
    else .error .assertion
  | some bo => basketIndexed lengthBytes headerBytes data bo

/-- Configuration record of the AsStrings interpretation. -/
structure AsStrings where
  header_bytes : Nat
  length_bytes : String
deriving DecidableEq

/-- AsStrings.__init__ (lines 61-70): any length_bytes mode other than "1-5"
or "4" is rejected with ValueError at construction time. -/
def AsStrings.make (headerBytes : Nat) (lengthBytes : String) : Except Unit AsStrings :=
  if lengthBytes = "1-5" ∨ lengthBytes = "4" then .ok ⟨headerBytes, lengthBytes⟩
  else .error ()

/-- Numpy slice assignment dst[p : p + src.length] = src, modelling the
in-bounds writes performed by final_array. -/
def writeAt (dst : List Int) (p : Nat) (src : List Int) : List Int :=
  dst.take p ++ src ++ dst.drop (p + src.length)

/-- Pass 1 of final_array (lines 266-277): the number of entries each chunk
contributes to the requested range, via the four overlap cases. -/
def stitchLength (es et : Nat) : Nat → List Nat → Nat
  | _, [] => 0
  | start, stop :: rest =>
    (if start ≤ es ∧ et ≤ stop then et - es
     else if start ≤ es ∧ es < stop then stop - es
     else if start ≤ et ∧ et ≤ stop then et - start
     else if es < stop ∧ start ≤ et then stop - start
     else 0) + stitchLength es et stop rest

/-- Pass 2 of final_array (lines 281-323): for each chunk paired with its stop
boundary, the four overlap cases re-base a slice of the chunk-local offsets by
before - off[local_start] into the output offsets buffer and append the
matching content fragment; before then advances by the bytes consumed. -/
def stitchLoop (es et : Nat) :
    List (StringArray × Nat) → Nat → Int → List Int → List (List Nat) →
    List Int × List (List Nat)
  | [], _, _, offs, contents => (offs, contents)
  | (ba, stop) :: rest, start, before, offs, contents =>
    let off := ba.offsets
    let cnt := ba.content
    if start ≤ es ∧ et ≤ stop then
      let ls := es - start
      let lstop := et - start
      let src := (sliceL off ls (lstop + 1)).map (fun x => before - off.getD ls 0 + x)
      stitchLoop es et rest stop (before + (off.getD lstop 0 - off.getD ls 0))
        (writeAt offs 0 src)
        (contents ++ [sliceL cnt (off.getD ls 0).toNat (off.getD lstop 0).toNat])
    else if start ≤ es ∧ es < stop then
      let ls := es - start
      let lstop := stop - start
      let src := (sliceL off ls (lstop + 1)).map (fun x => before - off.getD ls 0 + x)
      stitchLoop es et rest stop (before + (off.getD lstop 0 - off.getD ls 0))
        (writeAt offs 0 src)
        (contents ++ [sliceL cnt (off.getD ls 0).toNat (off.getD lstop 0).toNat])
    else if start ≤ et ∧ et ≤ stop then
      let lstop := et - start
      let src := (sliceL off 0 (lstop + 1)).map (fun x => before - off.getD 0 0 + x)
      stitchLoop es et rest stop (before + (off.getD lstop 0 - off.getD 0 0))
        (writeAt offs (start - es) src)
        (contents ++ [sliceL cnt (off.getD 0 0).toNat (off.getD lstop 0).toNat])
    else if es < stop ∧ start ≤ et then
      let src := off.map (fun x => before - off.getD 0 0 + x)
      stitchLoop es et rest stop (before + (off.getLastD 0 - off.getD 0 0))
        (writeAt offs (start - es) src)
        (contents ++ [sliceL cnt (off.getD 0 0).toNat (off.getLastD 0).toNat])
    else
      stitchLoop es et rest stop before offs contents

/-- The stitched column built by final_array before finalize (lines 256-325):
pass 1 sizes the output offsets buffer (numpy.empty, kept honest through the
arbitrary fill value), pass 2 tiles it and collects the content fragments,
then the fragments are joined as b"".flatten(contents). -/
def stitchColumn (baskets : List StringArray) (entryOffsets : List Nat)
    (es et : Nat) (fill : Int) : StringArray :=
  let length := stitchLength es et (entryOffsets.headD 0) entryOffsets.tail
  let res := stitchLoop es et (baskets.zip entryOffsets.tail) (entryOffsets.headD 0) 0
      (List.replicate (length + 1) fill) []
  ⟨res.1, res.2.flatten⟩

/-- AsStrings.final_array (lines 244-349): a degenerate request returns
StringArray(library.zeros((1,), int64), b"") directly, never reaching
library.finalize; otherwise the stitched column is handed to library.finalize
together with the branch identity and the requested range and finalize's
result is returned unchanged. -/
def final_array {β R : Type} (baskets : List StringArray) (es et : Nat)
    (entryOffsets : List Nat) (fill : Int) (branch : β)
    (finalize : StringArray → β → Nat → Nat → R) : StringArray ⊕ R :=
  if et ≤ es then .inl ⟨[0], []⟩
  else .inr (finalize (stitchColumn baskets entryOffsets es et fill) branch es et)

/-- Big-endian 4-byte encoding of a length; canonical encoding per spec 4.1. -/
def be32 (n : Nat) : List Nat := [n / 2 ^ 24 % 256, n / 2 ^ 16 % 256, n / 2 ^ 8 % 256, n % 256]

/-- Canonical "1-5" length prefix per spec 4.1: one byte below 255, otherwise
the marker 255 followed by the big-endian 4-byte length. -/
def lenPrefix15 (n : Nat) : List Nat := if n < 255 then [n] else 255 :: be32 n

/-- One length-prefixed record of the contiguous "1-5" run. -/
def encStr15 (s : List Nat) : List Nat := lenPrefix15 s.length ++ s

/-- Contiguous unindexed run of "1-5" records. -/
def encRun15 (ss : List (List Nat)) : List Nat := (ss.map encStr15).flatten

/-- One indexed record: header padding then the length-prefixed string. -/
def recEnc15 (h : Nat) (s : List Nat) : List Nat := List.replicate h 0 ++ encStr15 s

/-- Indexed payload: back-to-back records with header padding. -/
def encIndexed15 (h : Nat) (ss : List (List Nat)) : List Nat := (ss.map (recEnc15 h)).flatten

/-- External byte-offsets index of the indexed payload: record boundaries,
one more entry than there are records. -/
def byteOffs (h : Nat) : Nat → List (List Nat) → List Nat
  | base, [] => [base]
  | base, s :: r => base :: byteOffs h (base + (recEnc15 h s).length) r

/-- Chunk entry boundaries of a partition, from a running start. -/
def stopsFrom : Nat → List (List (List Nat)) → List Nat
  | _, [] => []
  | a, c :: r => (a + c.length) :: stopsFrom (a + c.length) r

/-! Basic lemmas about the shared building blocks. -/

theorem except_map_map {ε α β γ : Type} (f : α → β) (g : β → γ) (e : Except ε α) :
    (e.map f).map g = e.map (fun x => g (f x)) := by cases e <;> rfl

theorem except_map_id {ε α : Type} (e : Except ε α) : e.map (fun x => x) = e := by
  cases e <;> rfl

theorem cumsums_length (acc : Int) (l : List Int) : (cumsums acc l).length = l.length := by
  induction l generalizing acc with
  | nil => rfl
  | cons x xs ih => simp [cumsums, ih]

theorem cumsums_getD (l : List Int) (acc : Int) (i : Nat) (h : i < l.length) :
    (cumsums acc l).getD i 0 = acc + (l.take (i + 1)).sum := by
  induction l generalizing acc i with
  | nil => simp at h
  | cons x xs ih =>
    cases i with
    | zero => simp [cumsums]
    | succ j =>
      have hj : j < xs.length := by simpa using h
      simp only [cumsums, List.getD_cons_succ]
      rw [ih (acc + x) j hj]
      simp only [List.take_succ_cons, List.sum_cons]
      ring

theorem offsetsOf_length (counts : List Int) :
    (offsetsOf counts).length = counts.length + 1 := by
  simp [offsetsOf, cumsums_length]

theorem offsetsOf_getD (counts : List Int) (i : Nat) (h : i ≤ counts.length) :
    (offsetsOf counts).getD i 0 = (counts.take i).sum := by
  cases i with
  | zero => simp [offsetsOf]
  | succ j =>
    have hj : j < counts.length := by omega
    simp only [offsetsOf, List.getD_cons_succ]
    rw [cumsums_getD counts 0 j hj]
    ring

theorem chain'_cons_cumsums (acc : Int) (l : List Int) (h : ∀ x ∈ l, 0 ≤ x) :
    List.Chain' (fun a b => a ≤ b) (acc :: cumsums acc l) := by
  induction l generalizing acc with
  | nil => simp [cumsums]
  | cons x xs ih =>
    have hx : 0 ≤ x := h x (by simp)
    have := ih (acc + x) (fun y hy => h y (by simp [hy]))
    simpa [cumsums] using ⟨by omega, this⟩

theorem column_offsets_length (ss : List (List Nat)) :
    (column ss).offsets.length = ss.length + 1 := by
  simp [column, offsetsOf_length]

theorem list_len_sum_cast (l : List (List Nat)) :
    (l.map (fun s => (s.length : Int))).sum = (((l.map List.length).sum : Nat) : Int) := by
  induction l with
  | nil => simp
  | cons s r ih => simp [ih]

theorem column_offsets_getD (ss : List (List Nat)) (i : Nat) (h : i ≤ ss.length) :
    (column ss).offsets.getD i 0 = (((ss.take i).flatten.length : Nat) : Int) := by
  simp only [column]
  rw [offsetsOf_getD _ i (by simpa using h)]
  rw [← List.map_take, List.length_flatten, list_len_sum_cast]

/-! Lemmas about the unindexed decoder. -/

theorem be32val_be32 (n : Nat) (h : n < 2 ^ 32) :
    be32val (n / 2 ^ 24 % 256) (n / 2 ^ 16 % 256) (n / 2 ^ 8 % 256) (n % 256) = n := by
  simp only [be32val]
  omega

theorem decodeRun15F_fuel : ∀ (fuel1 fuel2 : Nat) (data : List Nat),
    data.length ≤ fuel1 → data.length ≤ fuel2 →
    decodeRun15F fuel1 data = decodeRun15F fuel2 data := by
  intro fuel1
  induction fuel1 with
  | zero =>
    intro fuel2 data h1 _
    cases data with
    | nil => cases fuel2 <;> rfl
    | cons b rest => simp at h1
  | succ f ih =>
    intro fuel2 data h1 h2
    cases data with
    | nil => cases fuel2 <;> rfl
    | cons b rest =>
      cases fuel2 with
      | zero => simp at h2
      | succ f2 =>
        simp only [decodeRun15F]
        by_cases hb : b = 255
        · simp only [hb, if_true]
          rcases rest with _ | ⟨b1, rest1⟩
          · rfl
          rcases rest1 with _ | ⟨b2, rest2⟩
          · rfl
          rcases rest2 with _ | ⟨b3, rest3⟩
          · rfl
          rcases rest3 with _ | ⟨b4, rest4⟩
          · rfl
          by_cases hsz : be32val b1 b2 b3 b4 ≤ rest4.length
          · simp only [hsz, if_true]
            rw [ih f2 (rest4.drop (be32val b1 b2 b3 b4))
              (by simp at h1 ⊢; omega) (by simp at h2 ⊢; omega)]
          · simp only [hsz, if_false]
        · simp only [hb, if_false]
          by_cases hlen : b ≤ rest.length
          · simp only [hlen, if_true]
            rw [ih f2 (rest.drop b) (by simp at h1 ⊢; omega) (by simp at h2 ⊢; omega)]
          · simp only [hlen, if_false]

theorem decodeRun15_cons (b : Nat) (rest : List Nat) :
    decodeRun15 (b :: rest) =
      if b = 255 then
        match rest with
        | b1 :: b2 :: b3 :: b4 :: rest4 =>
          if be32val b1 b2 b3 b4 ≤ rest4.length then
            (decodeRun15 (rest4.drop (be32val b1 b2 b3 b4))).map
              (fun ss => rest4.take (be32val b1 b2 b3 b4) :: ss)
          else .error .truncated
        | _ => .error .truncated
      else
        if b ≤ rest.length then
          (decodeRun15 (rest.drop b)).map (fun ss => rest.take b :: ss)
        else .error .truncated := by
  show decodeRun15F (rest.length + 1) (b :: rest) = _
  simp only [decodeRun15F]
  by_cases hb : b = 255
  · simp only [hb, if_true]
    rcases rest with _ | ⟨b1, rest1⟩
    · rfl
    rcases rest1 with _ | ⟨b2, rest2⟩
    · rfl
    rcases rest2 with _ | ⟨b3, rest3⟩
    · rfl
    rcases rest3 with _ | ⟨b4, rest4⟩
    · rfl
    by_cases hsz : be32val b1 b2 b3 b4 ≤ rest4.length
    · simp only [hsz, if_true]
      rw [decodeRun15, decodeRun15F_fuel _ _ _ (by simp only [List.length_drop, List.length_cons]; omega) (le_refl _)]
    · simp only [hsz, if_false]
  · simp only [hb, if_false]
    by_cases hlen : b ≤ rest.length
    · simp only [hlen, if_true]
      rw [decodeRun15, decodeRun15F_fuel _ _ _ (by simp only [List.length_drop, List.length_cons]; omega) (le_refl _)]
    · simp only [hlen, if_false]

theorem encRun15_cons (s : List Nat) (ss : List (List Nat)) :
    encRun15 (s :: ss) = encStr15 s ++ encRun15 ss := by
  simp [encRun15]

theorem decodeRun15_encRun_append (ss : List (List Nat)) (tail : List Nat)
    (hwf : ∀ s ∈ ss, s.length < 2 ^ 32) :
    decodeRun15 (encRun15 ss ++ tail) = (decodeRun15 tail).map (fun tt => ss ++ tt) := by
  induction ss with
  | nil =>
    have hfun : (fun tt : List (List Nat) => [] ++ tt) = fun tt => tt := by
      funext tt; simp
    simp only [encRun15, List.map_nil, List.flatten_nil, List.nil_append, hfun,
      except_map_id]
  | cons s ss ih =>
    have hs : s.length < 2 ^ 32 := hwf s (by simp)
    rw [encRun15_cons, List.append_assoc]
    by_cases hlt : s.length < 255
    · have hpre : encStr15 s = s.length :: s := by
        simp [encStr15, lenPrefix15, hlt]
      rw [hpre, List.cons_append, decodeRun15_cons]
      have hb : s.length ≠ 255 := by omega
      simp only [hb, if_false]
      have hlen : s.length ≤ (s ++ (encRun15 ss ++ tail)).length := by
        simp
      simp only [hlen, if_true, List.take_left, List.drop_left]
      rw [ih (fun x hx => hwf x (by simp [hx]))]
      rw [except_map_map]
      rfl
    · have hpre : encStr15 s = 255 :: (be32 s.length ++ s) := by
        simp [encStr15, lenPrefix15, hlt, be32]
      rw [hpre, List.cons_append, List.append_assoc, decodeRun15_cons]
      rw [if_pos rfl]
      simp only [be32, List.cons_append, List.nil_append]
      rw [be32val_be32 s.length hs]
      have hlen : s.length ≤ (s ++ (encRun15 ss ++ tail)).length := by simp
      rw [if_pos hlen]
      simp only [List.take_left, List.drop_left]
      rw [ih (fun x hx => hwf x (by simp [hx]))]
      rw [except_map_map]

/-! Structure of the indexed payload: record starts and content intervals. -/

/-- Prefix length of the canonical "1-5" record of s. -/
def plen15 (s : List Nat) : Nat := if s.length < 255 then 1 else 5

/-- Record start boundaries of the indexed payload (byteOffs without its final
boundary). -/
def recStarts (h : Nat) : Nat → List (List Nat) → List Nat
  | _, [] => []
  | base, s :: r => base :: recStarts h (base + (recEnc15 h s).length) r

/-- Content interval (content start, content stop) of each indexed record. -/
def ivsFrom (h : Nat) : Nat → List (List Nat) → List (Nat × Nat)
  | _, [] => []
  | base, s :: r =>
    (base + h + plen15 s, base + h + plen15 s + s.length) ::
      ivsFrom h (base + (recEnc15 h s).length) r

theorem lenPrefix15_length (n : Nat) :
    (lenPrefix15 n).length = if n < 255 then 1 else 5 := by
  by_cases hn : n < 255 <;> simp [lenPrefix15, be32, hn]

theorem encStr15_length (s : List Nat) :
    (encStr15 s).length = plen15 s + s.length := by
  simp [encStr15, lenPrefix15_length, plen15]

theorem recEnc15_length (h : Nat) (s : List Nat) :
    (recEnc15 h s).length = h + plen15 s + s.length := by
  simp [recEnc15, encStr15_length]
  omega

theorem byteOffs_eq (h : Nat) (base : Nat) (ss : List (List Nat)) :
    byteOffs h base ss = base :: (ivsFrom h base ss).map Prod.snd := by
  induction ss generalizing base with
  | nil => simp [byteOffs, ivsFrom]
  | cons s r ih =>
    simp only [byteOffs, ivsFrom, List.map_cons, ih]
    congr 1
    congr 1
    rw [recEnc15_length]
    omega

theorem byteOffs_dropLast (h : Nat) (base : Nat) (ss : List (List Nat)) :
    (byteOffs h base ss).dropLast = recStarts h base ss := by
  induction ss generalizing base with
  | nil => simp [byteOffs, recStarts]
  | cons s r ih =>
    have hne : byteOffs h (base + (recEnc15 h s).length) r ≠ [] := by
      cases r <;> simp [byteOffs]
    simp only [byteOffs, recStarts]
    rw [List.dropLast_cons_of_ne_nil hne, ih]

theorem encIndexed15_cons (h : Nat) (s : List Nat) (r : List (List Nat)) :
    encIndexed15 h (s :: r) = recEnc15 h s ++ encIndexed15 h r := by
  simp [encIndexed15]

theorem encIndexed15_length (h : Nat) (ss : List (List Nat)) (s : List Nat)
    (hmem : s ∈ ss) : h + plen15 s ≤ (encIndexed15 h ss).length := by
  induction ss with
  | nil => simp at hmem
  | cons x r ih =>
    rw [encIndexed15_cons]
    rcases List.mem_cons.mp hmem with hx | hr
    · subst hx
      simp only [List.length_append]
      rw [recEnc15_length]
      omega
    · have := ih hr
      simp only [List.length_append]
      omega

theorem prefixSizes_enc (h : Nat) (ss : List (List Nat)) :
    ∀ pre : List Nat,
      prefixSizes15 (pre ++ encIndexed15 h ss)
        ((recStarts h pre.length ss).map (fun o => o + h)) = ss.map plen15 := by
  induction ss with
  | nil => intro pre; simp [recStarts, prefixSizes15]
  | cons s r ih =>
    intro pre
    simp only [recStarts, List.map_cons, prefixSizes15, encIndexed15_cons]
    congr 1
    · -- the byte at the first record's prefix position
      have hbyte : (pre ++ (recEnc15 h s ++ encIndexed15 h r)).getD (pre.length + h) 0
          = if s.length < 255 then s.length else 255 := by
        rw [List.getD_append_right _ _ _ _ (by omega)]
        have hlt : pre.length + h - pre.length < (recEnc15 h s ++ encIndexed15 h r).length := by
          simp only [List.length_append]
          rw [recEnc15_length]
          simp only [plen15]
          by_cases hs : s.length < 255 <;> simp [hs] <;> omega
        have heq : pre.length + h - pre.length = h := by omega
        rw [heq]
        show (recEnc15 h s ++ encIndexed15 h r).getD h 0 = _
        rw [recEnc15, List.append_assoc]
        rw [List.getD_append_right _ _ _ _ (by simp), List.length_replicate, Nat.sub_self]
        by_cases hs : s.length < 255
        · simp [encStr15, lenPrefix15, hs]
        · simp [encStr15, lenPrefix15, hs]
      rw [hbyte]
      by_cases hs : s.length < 255
      · have : ¬ (s.length = 255) := by omega
        simp [hs, this, plen15]
      · simp [hs, plen15]
    · -- remaining records, with the consumed record folded into the prefix
      have h3 := ih (pre ++ recEnc15 h s)
      simp only [prefixSizes15, List.append_assoc, List.length_append] at h3
      exact h3

theorem starts_eq_ivs (h : Nat) (base : Nat) (ss : List (List Nat)) :
    List.zipWith (fun s p => s + p) ((recStarts h base ss).map (fun o => o + h))
      (ss.map plen15) = (ivsFrom h base ss).map Prod.fst := by
  induction ss generalizing base with
  | nil => simp [recStarts, ivsFrom]
  | cons s r ih => simp [recStarts, ivsFrom, ih]

theorem counts_eq_ivs (h : Nat) (base : Nat) (ss : List (List Nat)) :
    List.zipWith (fun (s t : Nat) => (t : Int) - (s : Int))
      ((ivsFrom h base ss).map Prod.fst) ((ivsFrom h base ss).map Prod.snd)
      = ss.map (fun s => (s.length : Int)) := by
  induction ss generalizing base with
  | nil => simp [ivsFrom]
  | cons s r ih =>
    simp only [ivsFrom, List.map_cons, List.zipWith_cons_cons, ih]
    congr 1
    push_cast
    ring

theorem recStarts_all_lt (h : Nat) (ss : List (List Nat)) :
    ∀ pre : List Nat, ∀ x ∈ (recStarts h pre.length ss).map (fun o => o + h),
      x < (pre ++ encIndexed15 h ss).length := by
  induction ss with
  | nil => intro pre x hx; simp [recStarts] at hx
  | cons s r ih =>
    intro pre x hx
    simp only [recStarts, List.map_cons, List.mem_cons] at hx
    rcases hx with hx | hx
    · subst hx
      simp only [List.length_append, encIndexed15_cons, List.length_append]
      rw [recEnc15_length]
      simp only [plen15]
      by_cases hs : s.length < 255 <;> simp [hs] <;> omega
    · have h2 := ih (pre ++ recEnc15 h s) x
      rw [List.length_append] at h2
      have := h2 (by simpa using hx)
      rw [encIndexed15_cons, List.append_assoc] at *
      simp only [List.length_append] at *
      omega

/-! The inclusion-mask cumulative sum, characterized through interval
counting. -/

theorem cumsums_append (acc : Int) (xs ys : List Int) :
    cumsums acc (xs ++ ys) = cumsums acc xs ++ cumsums (acc + xs.sum) ys := by
  induction xs generalizing acc with
  | nil => simp [cumsums]
  | cons x xs ih =>
    simp only [List.cons_append, cumsums, List.append_eq, ih, List.sum_cons, add_assoc]

theorem cumsums_map_range (d : Nat → Int) (L : Nat) :
    cumsums 0 ((List.range L).map d)
      = (List.range L).map (fun p => ((List.range (p + 1)).map d).sum) := by
  induction L with
  | zero => simp [cumsums]
  | succ n ih =>
    rw [List.range_succ, List.map_append, cumsums_append, ih, List.map_append]
    simp [cumsums, List.range_succ]

theorem sum_map_add_list {α : Type} (l : List α) (f g : α → Int) :
    (l.map (fun x => f x + g x)).sum = (l.map f).sum + (l.map g).sum := by
  induction l with
  | nil => simp
  | cons x xs ih => simp [ih]; ring

theorem sum_map_sub_list {α : Type} (l : List α) (f g : α → Int) :
    (l.map (fun x => f x - g x)).sum = (l.map f).sum - (l.map g).sum := by
  induction l with
  | nil => simp
  | cons x xs ih => simp [ih]; ring

theorem sum_indicator_range (x : Nat) (n : Nat) :
    ((List.range n).map (fun q => if q = x then (1 : Int) else 0)).sum
      = if x < n then 1 else 0 := by
  induction n with
  | zero => simp
  | succ n ih =>
    rw [List.range_succ, List.map_append, List.sum_append, ih]
    by_cases h1 : x < n
    · have h2 : x < n + 1 := by omega
      have h3 : ¬ (n = x) := by omega
      simp [h1, h2, h3]
    · by_cases h4 : x = n
      · subst h4
        simp
      · have h5 : ¬ (x < n + 1) := by omega
        have h6 : ¬ (n = x) := by omega
        simp [h1, h5, h6]

theorem sum_count_range (l : List Nat) (p : Nat) :
    ((List.range (p + 1)).map (fun q => (l.count q : Int))).sum
      = ((l.filter (fun x => decide (x ≤ p))).length : Int) := by
  induction l with
  | nil => simp
  | cons a l ih =>
    have hcount : ∀ q : Nat, ((a :: l).count q : Int)
        = (l.count q : Int) + (if q = a then 1 else 0) := by
      intro q
      rw [List.count_cons]
      by_cases hq : q = a
      · simp [hq]
      · have : ¬ ((a == q) = true) := by
          simpa using fun hh => hq hh.symm
        simp [hq, this]
    calc ((List.range (p + 1)).map (fun q => ((a :: l).count q : Int))).sum
        = ((List.range (p + 1)).map
            (fun q => (l.count q : Int) + (if q = a then 1 else 0))).sum := by
          exact congrArg _ (List.map_congr_left (fun q _ => hcount q))
      _ = ((List.range (p + 1)).map (fun q => (l.count q : Int))).sum
            + ((List.range (p + 1)).map (fun q => if q = a then (1 : Int) else 0)).sum := by
          exact sum_map_add_list _ _ _
      _ = ((l.filter (fun x => decide (x ≤ p))).length : Int)
            + (if a < p + 1 then 1 else 0) := by
          rw [ih, sum_indicator_range]
      _ = (((a :: l).filter (fun x => decide (x ≤ p))).length : Int) := by
          rw [List.filter_cons]
          by_cases ha : a ≤ p
          · have ha2 : a < p + 1 := by omega
            simp [ha, ha2]
          · have ha2 : ¬ (a < p + 1) := by omega
            simp [ha, ha2]

/-- Sortedness of the content intervals: every interval begins at or after lo,
is non-degenerate-ordered, and ends strictly before the next one begins. -/
def IvSorted : Nat → List (Nat × Nat) → Prop
  | _, [] => True
  | lo, iv :: r => lo ≤ iv.1 ∧ iv.1 ≤ iv.2 ∧ IvSorted (iv.2 + 1) r

/-- Membership of a byte position in one of the content intervals. -/
def inIvB (ivs : List (Nat × Nat)) (p : Nat) : Bool :=
  ivs.any (fun iv => decide (iv.1 ≤ p) && decide (p < iv.2))

theorem ivSorted_mono (lo lo2 : Nat) (ivs : List (Nat × Nat)) (h : lo2 ≤ lo)
    (hs : IvSorted lo ivs) : IvSorted lo2 ivs := by
  cases ivs with
  | nil => trivial
  | cons iv r =>
    obtain ⟨h1, h2, h3⟩ := hs
    exact ⟨by omega, h2, h3⟩

theorem ivSorted_lb (lo : Nat) (ivs : List (Nat × Nat)) (hs : IvSorted lo ivs) :
    ∀ iv ∈ ivs, lo ≤ iv.1 ∧ lo ≤ iv.2 := by
  induction ivs generalizing lo with
  | nil => intro iv hiv; simp at hiv
  | cons iv0 r ih =>
    intro iv hiv
    obtain ⟨h1, h2, h3⟩ := hs
    rcases List.mem_cons.mp hiv with hx | hr
    · subst hx; exact ⟨h1, by omega⟩
    · have := ih (iv0.2 + 1) h3 iv hr
      exact ⟨by omega, by omega⟩

theorem ivs_fst_nodup (lo : Nat) (ivs : List (Nat × Nat)) (hs : IvSorted lo ivs) :
    (ivs.map Prod.fst).Nodup := by
  induction ivs generalizing lo with
  | nil => simp
  | cons iv0 r ih =>
    obtain ⟨h1, h2, h3⟩ := hs
    simp only [List.map_cons, List.nodup_cons]
    constructor
    · intro hmem
      rcases List.mem_map.mp hmem with ⟨iv, hiv, hfst⟩
      have := (ivSorted_lb _ _ h3 iv hiv).1
      omega
    · exact ih _ h3

theorem filter_lt_le (l : List Nat) (L p : Nat) (hp : p < L) :
    (l.filter (fun x => decide (x < L))).filter (fun x => decide (x ≤ p))
      = l.filter (fun x => decide (x ≤ p)) := by
  induction l with
  | nil => simp
  | cons a l ih =>
    by_cases ha : a ≤ p
    · have ha2 : a < L := by omega
      simp [List.filter_cons, ha, ha2, ih]
    · by_cases ha2 : a < L
      · simp [List.filter_cons, ha, ha2, ih]
      · simp [List.filter_cons, ha, ha2, ih]

theorem iv_count_diff (ivs : List (Nat × Nat)) (lo : Nat) (hs : IvSorted lo ivs)
    (p : Nat) :
    (((ivs.map Prod.fst).filter (fun x => decide (x ≤ p))).length : Int)
      - (((ivs.map Prod.snd).filter (fun x => decide (x ≤ p))).length : Int)
    = if inIvB ivs p then 1 else 0 := by
  induction ivs generalizing lo with
  | nil => simp [inIvB]
  | cons iv0 r ih =>
    obtain ⟨h1, h2, h3⟩ := hs
    have hlbs := ivSorted_lb _ _ h3
    by_cases hp2 : iv0.2 ≤ p
    · -- past the first interval: it cancels and the rest decides
      have hs1 : iv0.1 ≤ p := by omega
      have hrec := ih (iv0.2 + 1) h3
      have e1 : ((iv0.1 :: r.map Prod.fst).filter (fun x => decide (x ≤ p))).length
          = ((r.map Prod.fst).filter (fun x => decide (x ≤ p))).length + 1 := by
        simp [List.filter_cons, hs1]
      have e2 : ((iv0.2 :: r.map Prod.snd).filter (fun x => decide (x ≤ p))).length
          = ((r.map Prod.snd).filter (fun x => decide (x ≤ p))).length + 1 := by
        simp [List.filter_cons, hp2]
      have e3 : inIvB (iv0 :: r) p = inIvB r p := by
        have hlt : ¬ (p < iv0.2) := by omega
        simp [inIvB, List.any_cons, hlt]
      simp only [List.map_cons, e1, e2, e3]
      push_cast
      rw [← hrec]
      ring
    · -- the rest of the intervals lies beyond p
      have hza : (r.map Prod.fst).filter (fun x => decide (x ≤ p)) = [] := by
        rw [List.filter_eq_nil_iff]
        intro x hx
        rcases List.mem_map.mp hx with ⟨iv, hiv, hfst⟩
        have := (hlbs iv hiv).1
        simp only [decide_eq_true_eq]
        omega
      have hzb : (r.map Prod.snd).filter (fun x => decide (x ≤ p)) = [] := by
        rw [List.filter_eq_nil_iff]
        intro x hx
        rcases List.mem_map.mp hx with ⟨iv, hiv, hsnd⟩
        have := (hlbs iv hiv).2
        simp only [decide_eq_true_eq]
        omega
      have hanyr : (r.any fun iv => decide (iv.1 ≤ p) && decide (p < iv.2)) = false := by
        rw [List.any_eq_false]
        intro iv hiv
        have := (hlbs iv hiv).1
        simp only [Bool.and_eq_true, decide_eq_true_eq, not_and]
        omega
      by_cases hp1 : iv0.1 ≤ p
      · -- inside the first interval
        have e1 : ((iv0.1 :: r.map Prod.fst).filter (fun x => decide (x ≤ p))).length
            = 1 := by
          simp [List.filter_cons, hp1, hza]
        have e2 : ((iv0.2 :: r.map Prod.snd).filter (fun x => decide (x ≤ p))).length
            = 0 := by
          simp [List.filter_cons, hp2, hzb]
        have e3 : inIvB (iv0 :: r) p = true := by
          have hin : p < iv0.2 := by omega
          simp [inIvB, List.any_cons, hp1, hin]
        simp [List.map_cons, e1, e2, e3]
      · -- before the first interval
        have e1 : ((iv0.1 :: r.map Prod.fst).filter (fun x => decide (x ≤ p))).length
            = 0 := by
          simp [List.filter_cons, hp1, hza]
        have e2 : ((iv0.2 :: r.map Prod.snd).filter (fun x => decide (x ≤ p))).length
            = 0 := by
          simp [List.filter_cons, hp2, hzb]
        have e3 : inIvB (iv0 :: r) p = false := by
          simp [inIvB, List.any_cons, hp1, hanyr]
        simp [List.map_cons, e1, e2, e3]

theorem maskCums_eq_indicator (L : Nat) (ivs : List (Nat × Nat)) (lo : Nat)
    (hs : IvSorted lo ivs) :
    maskCums L (ivs.map Prod.fst) (ivs.map Prod.snd)
      = (List.range L).map (fun p => if inIvB ivs p then (1 : Int) else 0) := by
  rw [maskCums, cumsums_map_range]
  apply List.map_congr_left
  intro p hp
  have hpL : p < L := List.mem_range.mp hp
  have hnd : ((ivs.map Prod.fst).filter (fun s => decide (s < L))).Nodup :=
    (ivs_fst_nodup lo ivs hs).filter _
  calc ((List.range (p + 1)).map (maskDelta L (ivs.map Prod.fst) (ivs.map Prod.snd))).sum
      = ((List.range (p + 1)).map (fun q =>
          (((ivs.map Prod.fst).filter (fun s => decide (s < L))).count q : Int)
          - (((ivs.map Prod.snd).filter (fun s => decide (s < L))).count q : Int))).sum := by
        apply congrArg
        apply List.map_congr_left
        intro q _
        rw [maskDelta]
        congr 1
        by_cases hq : q ∈ (ivs.map Prod.fst).filter (fun s => decide (s < L))
        · rw [List.count_eq_one_of_mem hnd hq]
          simp [hq]
        · rw [List.count_eq_zero_of_not_mem hq]
          simp [hq]
    _ = ((List.range (p + 1)).map (fun q =>
          (((ivs.map Prod.fst).filter (fun s => decide (s < L))).count q : Int))).sum
        - ((List.range (p + 1)).map (fun q =>
          (((ivs.map Prod.snd).filter (fun s => decide (s < L))).count q : Int))).sum :=
        sum_map_sub_list _ _ _
    _ = ((((ivs.map Prod.fst).filter (fun s => decide (s < L))).filter
            (fun x => decide (x ≤ p))).length : Int)
        - ((((ivs.map Prod.snd).filter (fun s => decide (s < L))).filter
            (fun x => decide (x ≤ p))).length : Int) := by
        rw [sum_count_range, sum_count_range]
    _ = (((ivs.map Prod.fst).filter (fun x => decide (x ≤ p))).length : Int)
        - (((ivs.map Prod.snd).filter (fun x => decide (x ≤ p))).length : Int) := by
        rw [filter_lt_le _ _ _ hpL, filter_lt_le _ _ _ hpL]
    _ = if inIvB ivs p then 1 else 0 := iv_count_diff ivs lo hs p

/-! Positional selection: the boolean-view filter over a list zipped with its
per-position mask, re-expressed through global indices. -/

/-- Reference positional selection: keep the elements whose global index
satisfies f. -/
def maskedSel {α : Type} (f : Nat → Bool) : List α → Nat → List α
  | [], _ => []
  | x :: xs, base => (if f base then [x] else []) ++ maskedSel f xs (base + 1)

theorem maskedSel_append {α : Type} (f : Nat → Bool) (u v : List α) :
    ∀ base : Nat,
      maskedSel f (u ++ v) base = maskedSel f u base ++ maskedSel f v (base + u.length) := by
  induction u with
  | nil => intro base; simp [maskedSel]
  | cons x xs ih =>
    intro base
    simp only [List.cons_append, maskedSel, List.append_eq, ih (base + 1),
      List.length_cons, List.append_assoc]
    have harr : base + 1 + xs.length = base + (xs.length + 1) := by omega
    rw [harr]

theorem maskedSel_congr {α : Type} (f g : Nat → Bool) (l : List α) :
    ∀ base : Nat, (∀ i, i < l.length → f (base + i) = g (base + i)) →
      maskedSel f l base = maskedSel g l base := by
  induction l with
  | nil => intro base _; rfl
  | cons x xs ih =>
    intro base hfg
    have h0 : f base = g base := by
      have := hfg 0 (by simp)
      simpa using this
    have hrest : ∀ i, i < xs.length → f (base + 1 + i) = g (base + 1 + i) := by
      intro i hi
      have := hfg (i + 1) (by simp; omega)
      have harr : base + (i + 1) = base + 1 + i := by omega
      rw [harr] at this
      exact this
    simp only [maskedSel, h0, ih (base + 1) hrest]

theorem maskedSel_all_false {α : Type} (f : Nat → Bool) (l : List α) :
    ∀ base : Nat, (∀ i, i < l.length → f (base + i) = false) →
      maskedSel f l base = [] := by
  induction l with
  | nil => intro base _; rfl
  | cons x xs ih =>
    intro base hf
    have h0 : f base = false := by simpa using hf 0 (by simp)
    have hrest : ∀ i, i < xs.length → f (base + 1 + i) = false := by
      intro i hi
      have := hf (i + 1) (by simp; omega)
      have harr : base + (i + 1) = base + 1 + i := by omega
      rw [harr] at this
      exact this
    simp [maskedSel, h0, ih (base + 1) hrest]

theorem maskedSel_all_true {α : Type} (f : Nat → Bool) (l : List α) :
    ∀ base : Nat, (∀ i, i < l.length → f (base + i) = true) →
      maskedSel f l base = l := by
  induction l with
  | nil => intro base _; rfl
  | cons x xs ih =>
    intro base hf
    have h0 : f base = true := by simpa using hf 0 (by simp)
    have hrest : ∀ i, i < xs.length → f (base + 1 + i) = true := by
      intro i hi
      have := hf (i + 1) (by simp; omega)
      have harr : base + (i + 1) = base + 1 + i := by omega
      rw [harr] at this
      exact this
    simp [maskedSel, h0, ih (base + 1) hrest]

theorem maskedSel_shift {α : Type} (f : Nat → Bool) (l : List α) (k : Nat) :
    ∀ base : Nat, maskedSel (fun p => f (p + k)) l base = maskedSel f l (base + k) := by
  induction l with
  | nil => intro base; rfl
  | cons x xs ih =>
    intro base
    have harr : base + 1 + k = base + k + 1 := by omega
    simp only [maskedSel, ih (base + 1), harr]

theorem boolSelect_range {α : Type} (l : List α) (g : Nat → Int) :
    boolSelect l ((List.range l.length).map g)
      = maskedSel (fun p => decide (g p ≠ 0)) l 0 := by
  induction l generalizing g with
  | nil => rfl
  | cons x xs ih =>
    have hr : List.range (x :: xs).length = 0 :: (List.range xs.length).map Nat.succ := by
      rw [List.length_cons]
      exact List.range_succ_eq_map xs.length
    rw [hr]
    simp only [List.map_cons, List.map_map]
    show (((x, g 0) :: xs.zip ((List.range xs.length).map (g ∘ Nat.succ))).filter
        (fun xm => decide (xm.2 ≠ 0))).map Prod.fst = _
    rw [List.filter_cons]
    have hmap : (List.range xs.length).map (g ∘ Nat.succ)
        = (List.range xs.length).map (fun q => g (q + 1)) := by
      apply List.map_congr_left
      intro q _
      rfl
    by_cases h0 : g 0 ≠ 0
    · simp only [decide_eq_true_eq]
      rw [if_pos h0]
      simp only [List.map_cons]
      show x :: boolSelect xs ((List.range xs.length).map (g ∘ Nat.succ)) = _
      rw [hmap, ih (fun q => g (q + 1))]
      have hsh := maskedSel_shift (fun p => decide (g p ≠ 0)) xs 1 0
      simp only [hsh]
      simp [maskedSel, h0]
    · simp only [decide_eq_true_eq]
      rw [if_neg h0]
      show boolSelect xs ((List.range xs.length).map (g ∘ Nat.succ)) = _
      rw [hmap, ih (fun q => g (q + 1))]
      have hsh := maskedSel_shift (fun p => decide (g p ≠ 0)) xs 1 0
      simp only [hsh]
      simp [maskedSel, h0]

theorem plen15_pos (s : List Nat) : 1 ≤ plen15 s := by
  by_cases hs : s.length < 255 <;> simp [plen15, hs]

theorem ivsFrom_sorted (h : Nat) (ss : List (List Nat)) :
    ∀ base lo : Nat, lo ≤ base + 1 → IvSorted lo (ivsFrom h base ss) := by
  induction ss with
  | nil => intro base lo _; trivial
  | cons s r ih =>
    intro base lo hlo
    have hplen := plen15_pos s
    refine ⟨?_, ?_, ?_⟩
    · show lo ≤ base + h + plen15 s
      omega
    · show base + h + plen15 s ≤ base + h + plen15 s + s.length
      omega
    · show IvSorted (base + h + plen15 s + s.length + 1) (ivsFrom h (base + (recEnc15 h s).length) r)
      apply ih
      rw [recEnc15_length]
      omega

theorem inIvB_lt_lo (ivs : List (Nat × Nat)) (lo p : Nat) (hs : IvSorted lo ivs)
    (hp : p < lo) : inIvB ivs p = false := by
  rw [inIvB, List.any_eq_false]
  intro iv hiv
  have := (ivSorted_lb _ _ hs iv hiv).1
  simp only [Bool.and_eq_true, decide_eq_true_eq, not_and]
  omega

theorem maskedSel_enc (h : Nat) (ss : List (List Nat)) :
    ∀ base : Nat,
      maskedSel (fun p => inIvB (ivsFrom h base ss) p) (encIndexed15 h ss) base
        = ss.flatten := by
  induction ss with
  | nil => intro base; simp [encIndexed15, maskedSel]
  | cons s r ih =>
    intro base
    have hplen := plen15_pos s
    have hsorted' : IvSorted (base + h + plen15 s + s.length + 1)
        (ivsFrom h (base + (recEnc15 h s).length) r) := by
      apply ivsFrom_sorted
      rw [recEnc15_length]
      omega
    have hlow : ∀ p, p < base + h + plen15 s →
        inIvB (ivsFrom h base (s :: r)) p = false := by
      intro p hp
      show inIvB ((base + h + plen15 s, base + h + plen15 s + s.length)
          :: ivsFrom h (base + (recEnc15 h s).length) r) p = false
      rw [inIvB, List.any_cons]
      have h1 : ¬ (base + h + plen15 s ≤ p) := by omega
      have h2 : inIvB (ivsFrom h (base + (recEnc15 h s).length) r) p = false :=
        inIvB_lt_lo _ _ _ hsorted' (by omega)
      rw [inIvB] at h2
      simp [h1, h2]
    have hmid : ∀ p, base + h + plen15 s ≤ p → p < base + h + plen15 s + s.length →
        inIvB (ivsFrom h base (s :: r)) p = true := by
      intro p hp1 hp2
      show inIvB ((base + h + plen15 s, base + h + plen15 s + s.length)
          :: ivsFrom h (base + (recEnc15 h s).length) r) p = true
      rw [inIvB, List.any_cons]
      simp [hp1, hp2]
    have hhigh : ∀ p, base + (recEnc15 h s).length ≤ p →
        inIvB (ivsFrom h base (s :: r)) p
          = inIvB (ivsFrom h (base + (recEnc15 h s).length) r) p := by
      intro p hp
      show inIvB ((base + h + plen15 s, base + h + plen15 s + s.length)
          :: ivsFrom h (base + (recEnc15 h s).length) r) p = _
      rw [inIvB, List.any_cons]
      rw [recEnc15_length] at hp
      have h1 : ¬ (p < base + h + plen15 s + s.length) := by omega
      simp [h1]
      rfl
    rw [encIndexed15_cons, maskedSel_append]
    have hrec : maskedSel (fun p => inIvB (ivsFrom h base (s :: r)) p)
        (recEnc15 h s) base = s := by
      have hdec : recEnc15 h s = List.replicate h (0 : Nat) ++ (lenPrefix15 s.length ++ s) := by
        rw [recEnc15, encStr15]
      rw [hdec, maskedSel_append, maskedSel_append]
      have e1 : maskedSel (fun p => inIvB (ivsFrom h base (s :: r)) p)
          (List.replicate h (0 : Nat)) base = [] := by
        apply maskedSel_all_false
        intro i hi
        apply hlow
        simp only [List.length_replicate] at hi
        omega
      have e2 : maskedSel (fun p => inIvB (ivsFrom h base (s :: r)) p)
          (lenPrefix15 s.length) (base + (List.replicate h (0 : Nat)).length) = [] := by
        apply maskedSel_all_false
        intro i hi
        apply hlow
        have hlen : (lenPrefix15 s.length).length = plen15 s := by
          rw [lenPrefix15_length]; rfl
        rw [hlen] at hi
        simp only [List.length_replicate]
        omega
      have e3 : maskedSel (fun p => inIvB (ivsFrom h base (s :: r)) p) s
          (base + (List.replicate h (0 : Nat)).length + (lenPrefix15 s.length).length)
          = s := by
        apply maskedSel_all_true
        intro i hi
        have hlen : (lenPrefix15 s.length).length = plen15 s := by
          rw [lenPrefix15_length]; rfl
        rw [hlen]
        apply hmid <;> simp only [List.length_replicate] <;> omega
      rw [e1, e2, e3]
      simp
    have htail : maskedSel (fun p => inIvB (ivsFrom h base (s :: r)) p)
        (encIndexed15 h r) (base + (recEnc15 h s).length) = r.flatten := by
      rw [← ih (base + (recEnc15 h s).length)]
      apply maskedSel_congr
      intro i _
      exact hhigh _ (by omega)
    rw [hrec, htail]
    simp

theorem indexedContent_enc (h : Nat) (ss : List (List Nat)) :
    boolSelect (encIndexed15 h ss)
      (maskCums (encIndexed15 h ss).length ((ivsFrom h 0 ss).map Prod.fst)
        ((ivsFrom h 0 ss).map Prod.snd))
      = ss.flatten := by
  rw [maskCums_eq_indicator _ _ 0 (ivsFrom_sorted h ss 0 0 (by omega))]
  rw [boolSelect_range]
  have hfun : (fun p => decide ((if inIvB (ivsFrom h 0 ss) p then (1 : Int) else 0) ≠ 0))
      = fun p => inIvB (ivsFrom h 0 ss) p := by
    funext p
    by_cases hb : inIvB (ivsFrom h 0 ss) p <;> simp [hb]
  rw [hfun]
  exact maskedSel_enc h ss 0

/-- The indexed "1-5" decode of the canonical indexed payload of any string
list yields exactly the column of those strings (no length bound is needed:
this path never decodes the 4-byte escape value). -/
theorem basketIndexed15_enc (h : Nat) (ss : List (List Nat)) :
    basketIndexed "1-5" h (encIndexed15 h ss) (byteOffs h 0 ss)
      = .ok (column ss) := by
  have hdrop : (byteOffs h 0 ss).dropLast = recStarts h 0 ss := byteOffs_dropLast h 0 ss
  have htail : (byteOffs h 0 ss).tail = (ivsFrom h 0 ss).map Prod.snd := by
    rw [byteOffs_eq]
    rfl
  have hpre : prefixSizes15 (encIndexed15 h ss)
      ((recStarts h 0 ss).map (fun o => o + h)) = ss.map plen15 := by
    have := prefixSizes_enc h ss []
    simpa using this
  have hall : (((byteOffs h 0 ss).dropLast.map (fun o => o + h)).all
      (fun s => decide (s < (encIndexed15 h ss).length))) = true := by
    rw [hdrop, List.all_eq_true]
    intro x hx
    have := recStarts_all_lt h ss [] x (by simpa using hx)
    simpa using this
  simp only [basketIndexed, if_true]
  rw [if_pos hall]
  rw [hdrop, htail, hpre, starts_eq_ivs, counts_eq_ivs, indexedContent_enc]
  rfl

/-! Index and slice helpers for the stitcher proof. -/

theorem list_ext_getD : ∀ (l1 l2 : List Int), l1.length = l2.length →
    (∀ i, i < l1.length → l1.getD i 0 = l2.getD i 0) → l1 = l2 := by
  intro l1
  induction l1 with
  | nil =>
    intro l2 h _
    cases l2 with
    | nil => rfl
    | cons y ys => simp at h
  | cons x xs ih =>
    intro l2 h hp
    cases l2 with
    | nil => simp at h
    | cons y ys =>
      have hx : x = y := by simpa using hp 0 (by simp)
      have hrest := ih ys (by simpa using h) (fun i hi => by
        have := hp (i + 1) (by simp; omega)
        simpa using this)
      rw [hx, hrest]

theorem getD_drop_int (l : List Int) : ∀ (n i : Nat), (l.drop n).getD i 0 = l.getD (n + i) 0 := by
  induction l with
  | nil => intro n i; simp
  | cons x xs ih =>
    intro n i
    cases n with
    | zero => simp
    | succ m =>
      show (xs.drop m).getD i 0 = (x :: xs).getD (m + 1 + i) 0
      have harr : m + 1 + i = (m + i) + 1 := by omega
      rw [harr, ih m i]
      rfl

theorem getD_take_int (l : List Int) : ∀ (n i : Nat), i < n → (l.take n).getD i 0 = l.getD i 0 := by
  induction l with
  | nil => intro n i _; simp
  | cons x xs ih =>
    intro n i hi
    cases n with
    | zero => omega
    | succ m =>
      cases i with
      | zero => rfl
      | succ j =>
        show (xs.take m).getD j 0 = xs.getD j 0
        exact ih m j (by omega)

theorem getD_map_add (c : Int) (l : List Int) : ∀ (i : Nat), i < l.length →
    (l.map (fun x => c + x)).getD i 0 = c + l.getD i 0 := by
  induction l with
  | nil => intro i hi; simp at hi
  | cons x xs ih =>
    intro i hi
    cases i with
    | zero => rfl
    | succ j => exact ih j (by simpa using hi)

theorem writeAt_zero (dst src : List Int) :
    writeAt dst 0 src = src ++ dst.drop src.length := by
  simp [writeAt]

theorem writeAt_step (T R : List Int) (c k : Nat) (hT : c + k + 1 ≤ T.length) :
    writeAt (T.take (c + 1) ++ R.drop (c + 1)) c ((T.drop c).take (k + 1))
      = T.take (c + k + 1) ++ R.drop (c + k + 1) := by
  have hsrc : ((T.drop c).take (k + 1)).length = k + 1 := by
    simp only [List.length_take, List.length_drop]
    omega
  have hA : (T.take (c + 1)).length = c + 1 := by
    simp only [List.length_take]
    omega
  rw [writeAt, hsrc]
  have htake : (T.take (c + 1) ++ R.drop (c + 1)).take c = T.take c := by
    rw [List.take_append_eq_append_take, hA]
    have h0 : c - (c + 1) = 0 := by omega
    rw [h0, List.take_zero, List.append_nil, List.take_take]
    have hm : min c (c + 1) = c := by omega
    rw [hm]
  have hdrop : (T.take (c + 1) ++ R.drop (c + 1)).drop (c + (k + 1)) = R.drop (c + k + 1) := by
    rw [List.drop_append_eq_append_drop, hA]
    have h1 : (T.take (c + 1)).drop (c + (k + 1)) = [] := by
      rw [List.drop_eq_nil_iff]
      rw [hA]
      omega
    rw [h1, List.nil_append, List.drop_drop]
    have harr : c + 1 + (c + (k + 1) - (c + 1)) = c + k + 1 := by omega
    rw [harr]
  rw [htake, hdrop]
  have hfin : T.take (c + k + 1) = T.take c ++ (T.drop c).take (k + 1) := by
    have harr : c + k + 1 = c + (k + 1) := by omega
    rw [harr, List.take_add]
  rw [hfin, List.append_assoc]

/-- Byte count of the first i strings, as an integer. -/
def cumB (ss : List (List Nat)) (i : Nat) : Int := (((ss.take i).flatten.length : Nat) : Int)

theorem flatten_take_drop (ss : List (List Nat)) (a b : Nat) (hab : a ≤ b) :
    ((((ss.drop a).take (b - a)).flatten.length : Nat) : Int) = cumB ss b - cumB ss a := by
  have hsplit : ss.take b = ss.take a ++ (ss.drop a).take (b - a) := by
    have harr : b = a + (b - a) := by omega
    rw [harr, List.take_add]
    have harr2 : a + (b - a) - a = b - a := by omega
    rw [harr2]
  rw [cumB, cumB, hsplit, List.flatten_append, List.length_append]
  push_cast
  ring

theorem cumB_mono (ss : List (List Nat)) (a b : Nat) (hab : a ≤ b) :
    cumB ss a ≤ cumB ss b := by
  have := flatten_take_drop ss a b hab
  have h0 : (0 : Int) ≤ ((((ss.drop a).take (b - a)).flatten.length : Nat) : Int) := by
    positivity
  omega

theorem sliceL_length (ss : List (List Nat)) (es et : Nat) (h1 : es ≤ et)
    (h2 : et ≤ ss.length) : (sliceL ss es et).length = et - es := by
  simp only [sliceL, List.length_take, List.length_drop]
  omega

theorem sliceCol_getD (ss : List (List Nat)) (es et : Nat) (h1 : es ≤ et)
    (h2 : et ≤ ss.length) (i : Nat) (hi : i ≤ et - es) :
    (column (sliceL ss es et)).offsets.getD i 0 = cumB ss (es + i) - cumB ss es := by
  rw [column_offsets_getD _ i (by rw [sliceL_length ss es et h1 h2]; omega)]
  have htk : (sliceL ss es et).take i = (ss.drop es).take i := by
    rw [sliceL, List.take_take]
    have hm : min i (et - es) = i := by omega
    rw [hm]
  rw [htk]
  have := flatten_take_drop ss es (es + i) (by omega)
  have harr : es + i - es = i := by omega
  rw [harr] at this
  rw [this]

theorem sliceCol_off_length (ss : List (List Nat)) (es et : Nat) (h1 : es ≤ et)
    (h2 : et ≤ ss.length) :
    (column (sliceL ss es et)).offsets.length = et - es + 1 := by
  rw [column_offsets_length, sliceL_length ss es et h1 h2]

theorem slice_flatten_append (ss : List (List Nat)) (es m1 m2 : Nat) (h1 : es ≤ m1)
    (h2 : m1 ≤ m2) :
    (sliceL ss es m1).flatten ++ (sliceL ss m1 m2).flatten = (sliceL ss es m2).flatten := by
  have hsplit : sliceL ss es m2 = sliceL ss es m1 ++ sliceL ss m1 m2 := by
    simp only [sliceL]
    have harr : m2 - es = (m1 - es) + (m2 - m1) := by omega
    rw [harr, List.take_add, List.drop_drop]
    have harr2 : es + (m1 - es) = m1 := by omega
    rw [harr2]
  rw [hsplit, List.flatten_append]

theorem content_slice (c : List (List Nat)) (ls lstop : Nat) (hls : ls ≤ lstop)
    (hstop : lstop ≤ c.length) :
    sliceL c.flatten ((column c).offsets.getD ls 0).toNat
        ((column c).offsets.getD lstop 0).toNat
      = ((c.drop ls).take (lstop - ls)).flatten := by
  rw [column_offsets_getD c ls (by omega), column_offsets_getD c lstop hstop]
  simp only [Int.toNat_natCast]
  have hdec : c = c.take ls ++ ((c.drop ls).take (lstop - ls) ++ (c.drop ls).drop (lstop - ls)) := by
    rw [List.take_append_drop, List.take_append_drop]
  have hlen2 : (c.take lstop).flatten.length
      = (c.take ls).flatten.length + ((c.drop ls).take (lstop - ls)).flatten.length := by
    have hsplit : c.take lstop = c.take ls ++ (c.drop ls).take (lstop - ls) := by
      have harr : lstop = ls + (lstop - ls) := by omega
      rw [harr, List.take_add]
      have harr2 : ls + (lstop - ls) - ls = lstop - ls := by omega
      rw [harr2]
    rw [hsplit, List.flatten_append, List.length_append]
  rw [sliceL]
  conv in c.flatten => rw [hdec]
  rw [List.flatten_append, List.flatten_append]
  rw [List.drop_append_eq_append_drop]
  have hz : (c.take ls).flatten.drop (c.take ls).flatten.length = [] := by
    simp
  rw [hz, List.nil_append, Nat.sub_self, List.drop_zero]
  rw [List.take_append_eq_append_take]
  have hlen3 : (c.take lstop).flatten.length - (c.take ls).flatten.length
      = ((c.drop ls).take (lstop - ls)).flatten.length := by omega
  rw [hlen3, List.take_length, Nat.sub_self, List.take_zero, List.append_nil]

theorem src_eq_Tseg (ss : List (List Nat)) (es et a : Nat) (c : List (List Nat))
    (htake : ∀ i, i ≤ c.length → c.take i = (ss.drop a).take i)
    (ls k d : Nat) (before : Int)
    (hlsk : ls + k ≤ c.length) (hdk : d + k ≤ et - es)
    (hes : es ≤ et) (het : et ≤ ss.length)
    (hpos : a + ls = es + d)
    (hbefore : before = cumB ss (a + ls) - cumB ss es) :
    (sliceL (column c).offsets ls (ls + k + 1)).map
        (fun x => before - (column c).offsets.getD ls 0 + x)
      = ((column (sliceL ss es et)).offsets.drop d).take (k + 1) := by
  have hofflen : (column c).offsets.length = c.length + 1 := column_offsets_length c
  have hoff : ∀ i, i ≤ c.length →
      (column c).offsets.getD i 0 = cumB ss (a + i) - cumB ss a := by
    intro i hi
    rw [column_offsets_getD c i hi, htake i hi]
    have hftd := flatten_take_drop ss a (a + i) (by omega)
    have harr : a + i - a = i := by omega
    rw [harr] at hftd
    exact hftd
  have hslice : sliceL (column c).offsets ls (ls + k + 1)
      = ((column c).offsets.drop ls).take (k + 1) := by
    rw [sliceL]
    have harr : ls + k + 1 - ls = k + 1 := by omega
    rw [harr]
  have hlhslen : ((sliceL (column c).offsets ls (ls + k + 1)).map
      (fun x => before - (column c).offsets.getD ls 0 + x)).length = k + 1 := by
    rw [hslice]
    simp only [List.length_map, List.length_take, List.length_drop, hofflen]
    omega
  apply list_ext_getD
  · rw [hlhslen]
    simp only [List.length_take, List.length_drop]
    rw [sliceCol_off_length ss es et hes het]
    omega
  · intro j hj
    rw [hlhslen] at hj
    have hgm : ((sliceL (column c).offsets ls (ls + k + 1)).map
        (fun x => before - (column c).offsets.getD ls 0 + x)).getD j 0
        = (before - (column c).offsets.getD ls 0)
          + (sliceL (column c).offsets ls (ls + k + 1)).getD j 0 := by
      apply getD_map_add
      rw [hslice]
      simp only [List.length_take, List.length_drop, hofflen]
      omega
    rw [hgm, hslice, getD_take_int _ _ _ hj, getD_drop_int]
    have hrhs : (((column (sliceL ss es et)).offsets.drop d).take (k + 1)).getD j 0
        = (column (sliceL ss es et)).offsets.getD (d + j) 0 := by
      rw [getD_take_int _ _ _ hj, getD_drop_int]
    rw [hrhs, sliceCol_getD ss es et hes het (d + j) (by omega)]
    rw [hoff ls (by omega), hoff (ls + j) (by omega), hbefore]
    have h1 : a + (ls + j) = es + d + j := by omega
    have h2 : a + ls = es + d := hpos
    rw [h1, h2]
    have h3 : es + (d + j) = es + d + j := by omega
    rw [h3]
    ring

theorem src_eq_Tseg_full (ss : List (List Nat)) (es et a : Nat) (c : List (List Nat))
    (htake : ∀ i, i ≤ c.length → c.take i = (ss.drop a).take i)
    (d : Nat) (before : Int)
    (hdk : d + c.length ≤ et - es)
    (hes : es ≤ et) (het : et ≤ ss.length)
    (hpos : a = es + d)
    (hbefore : before = cumB ss a - cumB ss es) :
    (column c).offsets.map (fun x => before - (column c).offsets.getD 0 0 + x)
      = ((column (sliceL ss es et)).offsets.drop d).take (c.length + 1) := by
  have hofflen : (column c).offsets.length = c.length + 1 := column_offsets_length c
  have hid : sliceL (column c).offsets 0 (0 + c.length + 1) = (column c).offsets := by
    rw [sliceL, List.drop_zero]
    apply List.take_of_length_le
    omega
  have := src_eq_Tseg ss es et a c htake 0 c.length d before (by omega) (by omega)
    hes het (by omega) (by simpa using hbefore)
  rw [hid] at this
  exact this

theorem stitchLength_eq (es et : Nat) (hlt : es < et) :
    ∀ (q : List (List (List Nat))) (a : Nat),
      et ≤ a + (q.map List.length).sum →
      stitchLength es et a (stopsFrom a q) = et - min (max a es) et := by
  intro q
  induction q with
  | nil =>
    intro a hcov
    simp only [List.map_nil, List.sum_nil] at hcov
    have h1 : min (max a es) et = et := by omega
    rw [h1]
    simp [stopsFrom, stitchLength]
  | cons c r ih =>
    intro a hcov
    simp only [List.map_cons, List.sum_cons] at hcov
    have hrec := ih (a + c.length) (by omega)
    show stitchLength es et a ((a + c.length) :: stopsFrom (a + c.length) r) = _
    rw [stitchLength, hrec]
    by_cases h1 : a ≤ es ∧ et ≤ a + c.length
    · rw [if_pos h1]
      omega
    · rw [if_neg h1]
      by_cases h2 : a ≤ es ∧ es < a + c.length
      · rw [if_pos h2]
        omega
      · rw [if_neg h2]
        by_cases h3 : a ≤ et ∧ et ≤ a + c.length
        · rw [if_pos h3]
          omega
        · rw [if_neg h3]
          by_cases h4 : es < a + c.length ∧ a ≤ et
          · rw [if_pos h4]
            omega
          · rw [if_neg h4]
            omega

theorem src_eq_Tseg2 (ss : List (List Nat)) (es et a : Nat) (c : List (List Nat))
    (htake : ∀ i, i ≤ c.length → c.take i = (ss.drop a).take i)
    (ls lstop d : Nat) (before : Int)
    (hll : ls ≤ lstop) (hlc : lstop ≤ c.length)
    (hdk : d + (lstop - ls) ≤ et - es)
    (hes : es ≤ et) (het : et ≤ ss.length)
    (hpos : a + ls = es + d)
    (hbefore : before = cumB ss (a + ls) - cumB ss es) :
    (sliceL (column c).offsets ls (lstop + 1)).map
        (fun x => before - (column c).offsets.getD ls 0 + x)
      = ((column (sliceL ss es et)).offsets.drop d).take (lstop - ls + 1) := by
  have harr : lstop + 1 = ls + (lstop - ls) + 1 := by omega
  rw [harr]
  exact src_eq_Tseg ss es et a c htake ls (lstop - ls) d before (by omega) hdk hes het
    hpos hbefore

theorem getLastD_getD : ∀ (l : List Int) (d1 d2 : Int), l ≠ [] →
    l.getLastD d1 = l.getD (l.length - 1) d2 := by
  intro l
  induction l with
  | nil => intro d1 d2 h; exact absurd rfl h
  | cons x xs ih =>
    intro d1 d2 _
    cases xs with
    | nil => rfl
    | cons y ys =>
      show (y :: ys).getLastD x = _
      rw [ih x d2 (by simp)]
      rfl

theorem chunk_frag (ss : List (List Nat)) (a : Nat) (c : List (List Nat))
    (htake : ∀ i, i ≤ c.length → c.take i = (ss.drop a).take i)
    (ls k : Nat) (hlk : ls + k ≤ c.length) :
    (c.drop ls).take k = sliceL ss (a + ls) (a + ls + k) := by
  have hc : c = (ss.drop a).take c.length := by
    have := htake c.length (le_refl _)
    rwa [List.take_length] at this
  rw [sliceL]
  have harr : a + ls + k - (a + ls) = k := by omega
  rw [harr]
  conv_lhs => rw [hc]
  rw [List.drop_take, List.drop_drop, List.take_take]
  have hm : min k (c.length - ls) = k := by omega
  rw [hm]

theorem column_content (c : List (List Nat)) : (column c).content = c.flatten := rfl

theorem column_off_len2 (c : List (List Nat)) :
    (column c).offsets.length = c.length + 1 := column_offsets_length c

/-- Main invariant of pass 2 of the stitcher: processing the remaining chunks
from logical position a, with before, the offsets buffer and the fragments
reflecting the part of the request already consumed, produces exactly the
offsets and content of the requested slice. -/
theorem stitchLoop_main (ss : List (List Nat)) (es et : Nat) (hlt : es < et)
    (hcov : et ≤ ss.length) (R : List Int) (hR : R.length = et - es + 1) :
    ∀ (q : List (List (List Nat))) (a : Nat) (before : Int) (offs : List Int)
      (contents : List (List Nat)),
      q.flatten = ss.drop a →
      before = cumB ss (min (max a es) et) - cumB ss es →
      contents.flatten = (sliceL ss es (min (max a es) et)).flatten →
      ((a ≤ es ∧ offs = R) ∨
        (es < a ∧ offs = (column (sliceL ss es et)).offsets.take (min a et - es + 1)
            ++ R.drop (min a et - es + 1))) →
      (stitchLoop es et ((q.map column).zip (stopsFrom a q)) a before offs contents).1
          = (column (sliceL ss es et)).offsets
        ∧ (stitchLoop es et ((q.map column).zip (stopsFrom a q)) a before offs
            contents).2.flatten = (sliceL ss es et).flatten := by
  intro q
  induction q with
  | nil =>
    intro a before offs contents hq hbefore hcont hoffs
    have ha : ss.length ≤ a := by
      have hlen := congrArg List.length hq
      simp only [List.flatten_nil, List.length_nil, List.length_drop] at hlen
      omega
    rcases hoffs with ⟨hA, _⟩ | ⟨hB, hoffs⟩
    · omega
    · have hmin : min a et = et := by omega
      rw [hmin] at hoffs
      have hTlen : (column (sliceL ss es et)).offsets.length = et - es + 1 :=
        sliceCol_off_length ss es et (by omega) hcov
      have hmm : min (max a es) et = et := by omega
      rw [hmm] at hcont
      constructor
      · show offs = _
        rw [hoffs, List.take_of_length_le (by omega),
          List.drop_eq_nil_iff.mpr (by omega), List.append_nil]
      · exact hcont
  | cons c r ih =>
    intro a before offs contents hq hbefore hcont hoffs
    have hq' : c ++ r.flatten = ss.drop a := by simpa using hq
    have htake : ∀ i, i ≤ c.length → c.take i = (ss.drop a).take i := by
      intro i hi
      rw [← hq', List.take_append_eq_append_take]
      have h0 : i - c.length = 0 := by omega
      rw [h0, List.take_zero, List.append_nil]
    have hrf : r.flatten = ss.drop (a + c.length) := by
      calc r.flatten = (c ++ r.flatten).drop c.length := by
            rw [List.drop_append_eq_append_drop]
            simp
        _ = (ss.drop a).drop c.length := by rw [hq']
        _ = ss.drop (a + c.length) := by rw [List.drop_drop]
    have hoff : ∀ i, i ≤ c.length →
        (column c).offsets.getD i 0 = cumB ss (a + i) - cumB ss a := by
      intro i hi
      rw [column_offsets_getD c i hi, htake i hi]
      have hftd := flatten_take_drop ss a (a + i) (by omega)
      have harr : a + i - a = i := by omega
      rw [harr] at hftd
      exact hftd
    have hTlen : (column (sliceL ss es et)).offsets.length = et - es + 1 :=
      sliceCol_off_length ss es et (by omega) hcov
    have hslnil : sliceL ss es es = ([] : List (List Nat)) := by
      simp [sliceL]
    have hzip : ((c :: r).map column).zip (stopsFrom a (c :: r))
        = (column c, a + c.length) :: ((r.map column).zip (stopsFrom (a + c.length) r)) :=
      rfl
    rw [hzip]
    simp only [stitchLoop]
    by_cases hble : a + c.length ≤ es
    · -- chunk entirely before the request: no overlap case fires
      rw [if_neg (by omega : ¬ (a ≤ es ∧ et ≤ a + c.length)),
        if_neg (by omega : ¬ (a ≤ es ∧ es < a + c.length)),
        if_neg (by omega : ¬ (a ≤ et ∧ et ≤ a + c.length)),
        if_neg (by omega : ¬ (es < a + c.length ∧ a ≤ et))]
      refine ih (a + c.length) before offs contents hrf ?_ ?_ ?_
      · have hm : min (max (a + c.length) es) et = min (max a es) et := by omega
        rw [hm]
        exact hbefore
      · have hm : min (max (a + c.length) es) et = min (max a es) et := by omega
        rw [hm]
        exact hcont
      · rcases hoffs with ⟨_, ho⟩ | ⟨hB, _⟩
        · exact Or.inl ⟨by omega, ho⟩
        · omega
    · by_cases ha_es : a ≤ es
      · have hphA : offs = R := by
          rcases hoffs with ⟨_, h⟩ | ⟨hgt, _⟩
          · exact h
          · omega
        have hmid : min (max a es) et = es := by omega
        rw [hmid] at hbefore hcont
        rw [hslnil] at hcont
        simp only [List.flatten_nil] at hcont
        by_cases hetb : et ≤ a + c.length
        · -- case 1: the chunk covers the whole request
          rw [if_pos ⟨ha_es, hetb⟩]
          have hsrc := src_eq_Tseg2 ss es et a c htake (es - a) (et - a) 0 before
            (by omega) (by omega) (by omega) (by omega) hcov (by omega)
            (by rw [show a + (es - a) = es from by omega]; exact hbefore)
          refine ih (a + c.length) _ _ _ hrf ?_ ?_ ?_
          · rw [hoff (et - a) (by omega), hoff (es - a) (by omega),
              show a + (et - a) = et from by omega,
              show a + (es - a) = es from by omega, hbefore,
              show min (max (a + c.length) es) et = et from by omega]
            ring
          · rw [column_content, content_slice c (es - a) (et - a) (by omega) (by omega),
              chunk_frag ss a c htake (es - a) (et - a - (es - a)) (by omega),
              show a + (es - a) + (et - a - (es - a)) = et from by omega,
              show a + (es - a) = es from by omega]
            simp only [List.flatten_append, List.flatten_cons, List.flatten_nil,
              List.append_nil, hcont, List.nil_append]
            rw [show min (max (a + c.length) es) et = et from by omega]
          · refine Or.inr ⟨by omega, ?_⟩
            rw [show min (a + c.length) et = et from by omega]
            rw [hphA, writeAt_zero, hsrc]
            rw [show et - a - (es - a) = et - es from by omega, List.drop_zero]
            rw [List.length_take, hTlen,
              show min (et - es + 1) (et - es + 1) = et - es + 1 from by omega]
        · -- case 2: the request starts in this chunk and continues past it
          rw [if_neg (by omega : ¬ (a ≤ es ∧ et ≤ a + c.length)),
            if_pos ⟨ha_es, by omega⟩]
          have hsrc := src_eq_Tseg2 ss es et a c htake (es - a) (a + c.length - a) 0 before
            (by omega) (by omega) (by omega) (by omega) hcov (by omega)
            (by rw [show a + (es - a) = es from by omega]; exact hbefore)
          refine ih (a + c.length) _ _ _ hrf ?_ ?_ ?_
          · rw [hoff (a + c.length - a) (by omega), hoff (es - a) (by omega),
              show a + (a + c.length - a) = a + c.length from by omega,
              show a + (es - a) = es from by omega, hbefore,
              show min (max (a + c.length) es) et = a + c.length from by omega]
            ring
          · rw [column_content,
              content_slice c (es - a) (a + c.length - a) (by omega) (by omega),
              chunk_frag ss a c htake (es - a) (a + c.length - a - (es - a)) (by omega),
              show a + (es - a) + (a + c.length - a - (es - a)) = a + c.length
                from by omega,
              show a + (es - a) = es from by omega]
            simp only [List.flatten_append, List.flatten_cons, List.flatten_nil,
              List.append_nil, hcont, List.nil_append]
            rw [show min (max (a + c.length) es) et = a + c.length from by omega]
          · refine Or.inr ⟨by omega, ?_⟩
            rw [show min (a + c.length) et = a + c.length from by omega]
            rw [hphA, writeAt_zero, hsrc]
            rw [show a + c.length - a - (es - a) = a + c.length - es from by omega,
              List.drop_zero]
            rw [List.length_take, hTlen,
              show min (a + c.length - es + 1) (et - es + 1) = a + c.length - es + 1
                from by omega]
      · -- the request started strictly before this chunk
        have hphB : es < a ∧ offs = (column (sliceL ss es et)).offsets.take (a - es + 1)
            ++ R.drop (a - es + 1) := by
          rcases hoffs with ⟨hle, _⟩ | ⟨hgt, ho⟩
          · omega
          · refine ⟨hgt, ?_⟩
            by_cases haet : a ≤ et
            · rw [show min a et = a from by omega] at ho
              exact ho
            · -- beyond the request the formula degenerates to the full prefix
              rw [show min a et = et from by omega] at ho
              rw [ho, List.take_of_length_le (by omega),
                List.take_of_length_le (by omega),
                List.drop_eq_nil_iff.mpr (by omega),
                List.drop_eq_nil_iff.mpr (by omega)]
        obtain ⟨hesa, hoffB⟩ := hphB
        by_cases haet : a ≤ et
        · have hmid : min (max a es) et = a := by omega
          rw [hmid] at hbefore hcont
          by_cases hetb : et ≤ a + c.length
          · -- case 3: the request ends in this chunk
            rw [if_neg (by omega : ¬ (a ≤ es ∧ et ≤ a + c.length)),
              if_neg (by omega : ¬ (a ≤ es ∧ es < a + c.length)),
              if_pos ⟨haet, hetb⟩]
            have hsrc := src_eq_Tseg2 ss es et a c htake 0 (et - a) (a - es) before
              (by omega) (by omega) (by omega) (by omega) hcov (by omega)
              (by rw [show a + 0 = a from by omega]; exact hbefore)
            refine ih (a + c.length) _ _ _ hrf ?_ ?_ ?_
            · rw [hoff (et - a) (by omega), hoff 0 (by omega),
                show a + (et - a) = et from by omega,
                show a + 0 = a from by omega, hbefore,
                show min (max (a + c.length) es) et = et from by omega]
              ring
            · rw [column_content, content_slice c 0 (et - a) (by omega) (by omega),
                chunk_frag ss a c htake 0 (et - a - 0) (by omega),
                show a + 0 + (et - a - 0) = et from by omega,
                show a + 0 = a from by omega]
              simp only [List.flatten_append, List.flatten_cons, List.flatten_nil,
                List.append_nil, hcont]
              rw [show min (max (a + c.length) es) et = et from by omega]
              exact slice_flatten_append ss es a et (by omega) (by omega)
            · refine Or.inr ⟨by omega, ?_⟩
              rw [show min (a + c.length) et = et from by omega]
              rw [hoffB, hsrc,
                show et - a - 0 = et - a from by omega]
              rw [writeAt_step (column (sliceL ss es et)).offsets R (a - es) (et - a)
                (by rw [hTlen]; omega)]
              rw [show a - es + (et - a) + 1 = et - es + 1 from by omega]
          · -- case 4: the chunk lies entirely inside the request
            rw [if_neg (by omega : ¬ (a ≤ es ∧ et ≤ a + c.length)),
              if_neg (by omega : ¬ (a ≤ es ∧ es < a + c.length)),
              if_neg (by omega : ¬ (a ≤ et ∧ et ≤ a + c.length)),
              if_pos ⟨by omega, haet⟩]
            have hlast : (column c).offsets.getLastD 0
                = (column c).offsets.getD c.length 0 := by
              rw [getLastD_getD _ 0 0 (by simp [column, offsetsOf]),
                column_off_len2]
              simp
            have hsrc := src_eq_Tseg_full ss es et a c htake (a - es) before
              (by omega) (by omega) hcov (by omega) hbefore
            refine ih (a + c.length) _ _ _ hrf ?_ ?_ ?_
            · rw [hlast, hoff c.length (by omega), hoff 0 (by omega),
                show a + 0 = a from by omega, hbefore,
                show min (max (a + c.length) es) et = a + c.length from by omega]
              ring
            · rw [hlast, column_content,
                content_slice c 0 c.length (by omega) (by omega),
                chunk_frag ss a c htake 0 (c.length - 0) (by omega),
                show a + 0 + (c.length - 0) = a + c.length from by omega,
                show a + 0 = a from by omega]
              simp only [List.flatten_append, List.flatten_cons, List.flatten_nil,
                List.append_nil, hcont]
              rw [show min (max (a + c.length) es) et = a + c.length from by omega]
              exact slice_flatten_append ss es a (a + c.length) (by omega) (by omega)
            · refine Or.inr ⟨by omega, ?_⟩
              rw [show min (a + c.length) et = a + c.length from by omega]
              rw [hoffB, hsrc]
              rw [writeAt_step (column (sliceL ss es et)).offsets R (a - es) c.length
                (by rw [hTlen]; omega)]
              rw [show a - es + c.length + 1 = a + c.length - es + 1 from by omega]
        · -- the chunk lies entirely past the request: no case fires
          rw [if_neg (by omega : ¬ (a ≤ es ∧ et ≤ a + c.length)),
            if_neg (by omega : ¬ (a ≤ es ∧ es < a + c.length)),
            if_neg (by omega : ¬ (a ≤ et ∧ et ≤ a + c.length)),
            if_neg (by omega : ¬ (es < a + c.length ∧ a ≤ et))]
          refine ih (a + c.length) before offs contents hrf ?_ ?_ ?_
          · rw [show min (max (a + c.length) es) et = min (max a es) et from by omega]
            exact hbefore
          · rw [show min (max (a + c.length) es) et = min (max a es) et from by omega]
            exact hcont
          · refine Or.inr ⟨by omega, ?_⟩
            rw [show min (a + c.length) et = et from by omega]
            rw [hoffB, List.take_of_length_le (by omega),
              List.take_of_length_le (by omega),
              List.drop_eq_nil_iff.mpr (by omega),
              List.drop_eq_nil_iff.mpr (by omega)]

/-- The stitcher on any partition of the logical strings produces exactly the
column of the requested slice, for every fill value of the uninitialized
output buffer. -/
theorem stitch_eq_column (ss : List (List Nat)) (p : List (List (List Nat)))
    (es et : Nat) (fill : Int) (hp : p.flatten = ss) (h1 : es < et)
    (h2 : et ≤ ss.length) :
    stitchColumn (p.map column) (0 :: stopsFrom 0 p) es et fill
      = column (sliceL ss es et) := by
  have hsum : (p.map List.length).sum = ss.length := by
    rw [← hp]
    exact (List.length_flatten p).symm
  have heq : stitchLength es et 0 (stopsFrom 0 p) = et - es := by
    rw [stitchLength_eq es et h1 p 0 (by omega)]
    omega
  have hmain := stitchLoop_main ss es et h1 h2 (List.replicate (et - es + 1) fill)
    (by simp) p 0 0 (List.replicate (et - es + 1) fill) []
    (by simpa using hp)
    (by rw [show min (max 0 es) et = es from by omega]; ring)
    (by
      rw [show min (max 0 es) et = es from by omega]
      rw [show sliceL ss es es = ([] : List (List Nat)) from by simp [sliceL]])
    (Or.inl ⟨by omega, rfl⟩)
  have hdef : stitchColumn (p.map column) (0 :: stopsFrom 0 p) es et fill
      = ⟨(stitchLoop es et ((p.map column).zip (stopsFrom 0 p)) 0 0
            (List.replicate (stitchLength es et 0 (stopsFrom 0 p) + 1) fill) []).1,
          (stitchLoop es et ((p.map column).zip (stopsFrom 0 p)) 0 0
            (List.replicate (stitchLength es et 0 (stopsFrom 0 p) + 1) fill) []).2.flatten⟩ :=
    rfl
  rw [hdef, heq]
  obtain ⟨hm1, hm2⟩ := hmain
  rw [hm1, hm2]
  rfl

/-! Remaining helper facts for the claims. -/

theorem decodeRun15_encRun (ss : List (List Nat)) (hwf : ∀ s ∈ ss, s.length < 2 ^ 32) :
    decodeRun15 (encRun15 ss) = .ok ss := by
  have h := decodeRun15_encRun_append ss [] hwf
  rw [List.append_nil] at h
  rw [h]
  show Except.ok (ss ++ []) = _
  rw [List.append_nil]

theorem decodeRun15_truncated (ss : List (List Nat)) (n : Nat) (t : List Nat)
    (hwf : ∀ s ∈ ss, s.length < 2 ^ 32) (hn : n < 2 ^ 32) (ht : t.length < n) :
    decodeRun15 (encRun15 ss ++ (lenPrefix15 n ++ t)) = .error .truncated := by
  rw [decodeRun15_encRun_append ss _ hwf]
  have herr : decodeRun15 (lenPrefix15 n ++ t) = .error .truncated := by
    by_cases hlt : n < 255
    · rw [show lenPrefix15 n = [n] from by simp [lenPrefix15, hlt],
        List.singleton_append, decodeRun15_cons]
      rw [if_neg (by omega : ¬ (n = 255))]
      rw [if_neg (by omega : ¬ (n ≤ t.length))]
    · rw [show lenPrefix15 n = 255 :: be32 n from by simp [lenPrefix15, hlt],
        List.cons_append, decodeRun15_cons, if_pos rfl]
      simp only [be32, List.cons_append, List.nil_append]
      rw [be32val_be32 n hn]
      rw [if_neg (by omega : ¬ (n ≤ t.length))]
  rw [herr]
  rfl

theorem decodeRun15_readPrefix (b : Nat) (rest : List Nat) :
    decodeRun15 (b :: rest)
      = match readPrefix15 (b :: rest) with
        | .error e => .error e
        | .ok sc =>
          if sc.1 ≤ (b :: rest).length - sc.2 then
            (decodeRun15 ((b :: rest).drop (sc.2 + sc.1))).map
              (fun ss => sliceL (b :: rest) sc.2 (sc.2 + sc.1) :: ss)
          else .error .truncated := by
  by_cases hb : b = 255
  · subst hb
    rcases rest with _ | ⟨b1, r1⟩
    · have hrp : readPrefix15 [255] = .error .truncated := rfl
      rw [hrp, decodeRun15_cons, if_pos rfl]
    rcases r1 with _ | ⟨b2, r2⟩
    · have hrp : readPrefix15 [255, b1] = .error .truncated := rfl
      rw [hrp, decodeRun15_cons, if_pos rfl]
    rcases r2 with _ | ⟨b3, r3⟩
    · have hrp : readPrefix15 [255, b1, b2] = .error .truncated := rfl
      rw [hrp, decodeRun15_cons, if_pos rfl]
    rcases r3 with _ | ⟨b4, r4⟩
    · have hrp : readPrefix15 [255, b1, b2, b3] = .error .truncated := rfl
      rw [hrp, decodeRun15_cons, if_pos rfl]
    have hrp : readPrefix15 (255 :: b1 :: b2 :: b3 :: b4 :: r4)
        = .ok (be32val b1 b2 b3 b4, 5) := rfl
    rw [hrp, decodeRun15_cons, if_pos rfl]
    show (if be32val b1 b2 b3 b4 ≤ r4.length then _ else _)
      = (if be32val b1 b2 b3 b4 ≤ (255 :: b1 :: b2 :: b3 :: b4 :: r4).length - 5 then _
         else _)
    have hlen : (255 :: b1 :: b2 :: b3 :: b4 :: r4).length - 5 = r4.length := by
      simp only [List.length_cons]
      omega
    rw [hlen]
    by_cases hsz : be32val b1 b2 b3 b4 ≤ r4.length
    · rw [if_pos hsz, if_pos hsz]
      have hdrop : (255 :: b1 :: b2 :: b3 :: b4 :: r4).drop (5 + be32val b1 b2 b3 b4)
          = r4.drop (be32val b1 b2 b3 b4) := by
        rw [← List.drop_drop]
        rfl
      have hslice : sliceL (255 :: b1 :: b2 :: b3 :: b4 :: r4) 5 (5 + be32val b1 b2 b3 b4)
          = r4.take (be32val b1 b2 b3 b4) := by
        rw [sliceL, show 5 + be32val b1 b2 b3 b4 - 5 = be32val b1 b2 b3 b4 from by omega]
        rfl
      rw [hdrop, hslice]
    · rw [if_neg hsz, if_neg hsz]
  · have hrp : readPrefix15 (b :: rest) = .ok (b, 1) := by
      show (if b = 255 then _ else _) = _
      rw [if_neg hb]
    rw [hrp, decodeRun15_cons, if_neg hb]
    show (if b ≤ rest.length then _ else _) = (if b ≤ (b :: rest).length - 1 then _ else _)
    have hlen : (b :: rest).length - 1 = rest.length := by simp
    rw [hlen]
    by_cases hble : b ≤ rest.length
    · rw [if_pos hble, if_pos hble]
      have hdrop : (b :: rest).drop (1 + b) = rest.drop b := by
        rw [← List.drop_drop]
        rfl
      have hslice : sliceL (b :: rest) 1 (1 + b) = rest.take b := by
        rw [sliceL, show 1 + b - 1 = b from by omega]
        rfl
      rw [hdrop, hslice]
    · rw [if_neg hble, if_neg hble]

theorem decodeRun15F_no_assert : ∀ (fuel : Nat) (data : List Nat),
    decodeRun15F fuel data ≠ .error .assertion := by
  intro fuel
  induction fuel with
  | zero =>
    intro data
    cases data with
    | nil => simp [decodeRun15F]
    | cons b rest => simp [decodeRun15F]
  | succ f ih =>
    intro data
    cases data with
    | nil => simp [decodeRun15F]
    | cons b rest =>
      simp only [decodeRun15F]
      by_cases hb : b = 255
      · simp only [hb, if_true]
        rcases rest with _ | ⟨b1, r1⟩
        · simp
        rcases r1 with _ | ⟨b2, r2⟩
        · simp
        rcases r2 with _ | ⟨b3, r3⟩
        · simp
        rcases r3 with _ | ⟨b4, r4⟩
        · simp
        by_cases hsz : be32val b1 b2 b3 b4 ≤ r4.length
        · simp only [hsz, if_true]
          intro hcontra
          cases hres : decodeRun15F f (r4.drop (be32val b1 b2 b3 b4)) with
          | ok v =>
            rw [hres] at hcontra
            simp [Except.map] at hcontra
          | error e =>
            rw [hres] at hcontra
            simp only [Except.map] at hcontra
            injection hcontra with he
            exact ih (r4.drop (be32val b1 b2 b3 b4)) (by rw [hres, he])
        · simp [hsz]
      · simp only [hb, if_false]
        by_cases hble : b ≤ rest.length
        · simp only [hble, if_true]
          intro hcontra
          cases hres : decodeRun15F f (rest.drop b) with
          | ok v =>
            rw [hres] at hcontra
            simp [Except.map] at hcontra
          | error e =>
            rw [hres] at hcontra
            simp only [Except.map] at hcontra
            injection hcontra with he
            exact ih (rest.drop b) (by rw [hres, he])
        · simp [hble]

theorem decodeRun4F_no_assert : ∀ (fuel : Nat) (data : List Nat),
    decodeRun4F fuel data ≠ .error .assertion := by
  intro fuel
  induction fuel with
  | zero =>
    intro data
    cases data with
    | nil => simp [decodeRun4F]
    | cons b rest => simp [decodeRun4F]
  | succ f ih =>
    intro data
    rcases data with _ | ⟨b1, r1⟩
    · simp [decodeRun4F]
    rcases r1 with _ | ⟨b2, r2⟩
    · simp [decodeRun4F]
    rcases r2 with _ | ⟨b3, r3⟩
    · simp [decodeRun4F]
    rcases r3 with _ | ⟨b4, r4⟩
    · simp [decodeRun4F]
    simp only [decodeRun4F]
    by_cases hsz : be32val b1 b2 b3 b4 ≤ r4.length
    · simp only [hsz, if_true]
      intro hcontra
      cases hres : decodeRun4F f (r4.drop (be32val b1 b2 b3 b4)) with
      | ok v =>
        rw [hres] at hcontra
        simp [Except.map] at hcontra
      | error e =>
        rw [hres] at hcontra
        simp only [Except.map] at hcontra
        injection hcontra with he
        exact ih (r4.drop (be32val b1 b2 b3 b4)) (by rw [hres, he])
    · simp [hsz]

theorem basketIndexed_no_assert (lengthBytes : String) (h : Nat) (data : List Nat)
    (bo : List Nat) (hmode : lengthBytes = "1-5" ∨ lengthBytes = "4") :
    basketIndexed lengthBytes h data bo ≠ .error .assertion := by
  rcases hmode with hm | hm <;> subst hm <;>
    · simp only [basketIndexed]
      intro hcontra
      split at hcontra
      · split at hcontra <;> simp_all
      · split at hcontra <;> simp_all

theorem basketIndexed4_ok (h : Nat) (data : List Nat) (bo : List Nat) :
    ∃ r, basketIndexed "4" h data bo = .ok r := ⟨_, rfl⟩

theorem column_invariants (ss : List (List Nat)) :
    (column ss).offsets.length = ss.length + 1
    ∧ (column ss).offsets.getD 0 0 = 0
    ∧ List.Chain' (fun x y => x ≤ y) (column ss).offsets
    ∧ (column ss).offsets.getLastD 0 = ((column ss).content.length : Int) := by
  refine ⟨column_offsets_length ss, by simp [column, offsetsOf], ?_, ?_⟩
  · show List.Chain' _ (0 :: cumsums 0 _)
    apply chain'_cons_cumsums
    intro x hx
    rcases List.mem_map.mp hx with ⟨s, _, rfl⟩
    positivity
  · rw [getLastD_getD _ 0 0 (by simp [column, offsetsOf]), column_off_len2]
    simp only [Nat.add_sub_cancel]
    rw [column_offsets_getD ss ss.length (le_refl _)]
    simp [column]

/-! The line-faithful unindexed pipeline.  The strict decoders above reject
every truncated record, but numpy slicing (lines 178 and 190) clamps both
slices and slice assignment broadcasts a shape-(1,) source, so the program
itself accepts a truncated final record when exactly one content byte
remains.  The definitions below follow the loop byte for byte; as everywhere
else in this development the int32 counts and int64 offsets are modelled as
unbounded integers. -/

/-- Numpy basic-slice assignment dst[a : b] = src on a one-dimensional array
(lines 178 and 190): both bounds are clamped to the array length and an empty
target is allowed; the assignment succeeds when the source length equals the
target length, or, by broadcasting, when the source has exactly one element,
which is then repeated across the target; any other shape mismatch is a
ValueError. -/
def writeSlice (dst : List Nat) (a b : Nat) (src : List Nat) : Option (List Nat) :=
  let start := min a dst.length
  let stop := max start (min b dst.length)
  if src.length = stop - start then
    some (dst.take start ++ src ++ dst.drop stop)
  else if src.length = 1 then
    some (dst.take start ++ List.replicate (stop - start) (src.getD 0 0) ++ dst.drop stop)
  else none

/-- The "4" length-prefix read (lines 186-187): always the next four bytes
big-endian; fewer than four remaining bytes is a struct.error. -/
def readPrefix4 : List Nat → Except DecodeError (Nat × Nat)
  | b1 :: b2 :: b3 :: b4 :: _ => .ok (be32val b1 b2 b3 b4, 4)
  | _ => .error .truncated

/-- The unindexed decode loop of basket_array (lines 159-198), line-faithful
and parametric in the prefix reader (readPrefix15 in "1-5" mode, readPrefix4
in "4" mode): while bytes remain, read one length prefix, slice the declared
number of content bytes (numpy slicing clamps at the end of the buffer),
assign them into outdata through writeSlice, then advance len_outdata by the
full declared size and the cursor past the declared record.  Every iteration
consumes at least one byte, so fuel equal to the buffer length reaches the
end.  Returns the counts, the final outdata buffer and the final
len_outdata. -/
def uRunF (readPfx : List Nat → Except DecodeError (Nat × Nat)) :
    Nat → List Nat → List Nat → Nat → Except DecodeError (List Int × List Nat × Nat)
  | _, [], out, lenOut => .ok ([], out, lenOut)
  | 0, _ :: _, _, _ => .error .truncated
  | fuel + 1, b :: rest, out, lenOut =>
    match readPfx (b :: rest) with
    | .error e => .error e
    | .ok (size, c) =>
      match writeSlice out lenOut (lenOut + size) (sliceL (b :: rest) c (c + size)) with
      | none => .error .valueError
      | some out2 =>
        (uRunF readPfx fuel ((b :: rest).drop (c + size)) out2 (lenOut + size)).map
          (fun r => ((size : Int) :: r.1, r.2))

/-- The loop with exactly enough fuel. -/
def uRun (readPfx : List Nat → Except DecodeError (Nat × Nat))
    (rem out : List Nat) (lenOut : Nat) :
    Except DecodeError (List Int × List Nat × Nat) :=
  uRunF readPfx rem.length rem out lenOut

/-- Line-faithful unindexed "1-5" basket_array (lines 159-180 and 221-229):
run the loop over the whole buffer with outdata = numpy.empty(len(data))
modelled by an arbitrary fill byte, then the offsets are zero followed by the
cumulative sums of the counts and the content is outdata[:len_outdata], a
basic slice that clamps at the buffer length. -/
def uBasket15 (data : List Nat) (fill : Nat) : Except DecodeError StringArray :=
  (uRun readPrefix15 data (List.replicate data.length fill) 0).map
    (fun r => ⟨offsetsOf r.1, r.2.1.take r.2.2⟩)

/-- Line-faithful unindexed "4" basket_array (lines 159-166, 182-198 and
221-229). -/
def uBasket4 (data : List Nat) (fill : Nat) : Except DecodeError StringArray :=
  (uRun readPrefix4 data (List.replicate data.length fill) 0).map
    (fun r => ⟨offsetsOf r.1, r.2.1.take r.2.2⟩)

theorem sliceL_append_left {α : Type} (l1 l2 : List α) (a b : Nat)
    (h : b ≤ l1.length) : sliceL (l1 ++ l2) a b = sliceL l1 a b := by
  rw [sliceL, sliceL, List.drop_append_eq_append_drop, List.take_append_eq_append_take]
  have hz : b - a - (l1.drop a).length = 0 := by
    simp only [List.length_drop]
    omega
  rw [hz, List.take_zero, List.append_nil]

theorem drop_append_left {α : Type} (l1 l2 : List α) (n : Nat) (h : n ≤ l1.length) :
    (l1 ++ l2).drop n = l1.drop n ++ l2 := by
  rw [List.drop_append_eq_append_drop, show n - l1.length = 0 from by omega,
    List.drop_zero]

theorem writeSlice_length (dst : List Nat) (a b : Nat) (src out2 : List Nat)
    (h : writeSlice dst a b src = some out2) : out2.length = dst.length := by
  simp only [writeSlice] at h
  split at h
  · injection h with h2
    subst h2
    simp only [List.length_append, List.length_take, List.length_drop]
    omega
  · split at h
    · injection h with h2
      subst h2
      simp only [List.length_append, List.length_take, List.length_replicate,
        List.length_drop]
      omega
    · exact absurd h (by simp)

theorem writeSlice_exact (dst src : List Nat) (a : Nat)
    (h : a + src.length ≤ dst.length) :
    writeSlice dst a (a + src.length) src
      = some (dst.take a ++ src ++ dst.drop (a + src.length)) := by
  simp only [writeSlice]
  rw [min_eq_left (by omega : a ≤ dst.length),
    min_eq_left (by omega : a + src.length ≤ dst.length),
    max_eq_right (by omega : a ≤ a + src.length)]
  rw [if_pos (by omega : src.length = a + src.length - a)]

theorem writeSlice_short (dst src : List Nat) (a b : Nat) (ha : a ≤ dst.length)
    (hlt : src.length < max a (min b dst.length) - a) :
    (src.length ≠ 1 → writeSlice dst a b src = none)
    ∧ (src.length = 1 → writeSlice dst a b src
        = some (dst.take a
            ++ List.replicate (max a (min b dst.length) - a) (src.getD 0 0)
            ++ dst.drop (max a (min b dst.length)))) := by
  constructor <;> intro h1 <;> simp only [writeSlice] <;>
    rw [min_eq_left ha] <;> rw [if_neg (by omega)]
  · rw [if_neg h1]
  · rw [if_pos h1]

theorem uRunF_cons_err (rp : List Nat → Except DecodeError (Nat × Nat))
    (fuel : Nat) (b : Nat) (rest out : List Nat) (lenOut : Nat) (e : DecodeError)
    (hread : rp (b :: rest) = .error e) :
    uRunF rp (fuel + 1) (b :: rest) out lenOut = .error e := by
  simp only [uRunF]
  rw [hread]

theorem uRunF_cons_eq (rp : List Nat → Except DecodeError (Nat × Nat))
    (fuel : Nat) (b : Nat) (rest out : List Nat) (lenOut size c : Nat)
    (hread : rp (b :: rest) = .ok (size, c)) :
    uRunF rp (fuel + 1) (b :: rest) out lenOut
      = match writeSlice out lenOut (lenOut + size) (sliceL (b :: rest) c (c + size)) with
        | none => .error .valueError
        | some out2 =>
          (uRunF rp fuel ((b :: rest).drop (c + size)) out2 (lenOut + size)).map
            (fun r => ((size : Int) :: r.1, r.2)) := by
  simp only [uRunF]
  rw [hread]

theorem uRunF_fuel (rp : List Nat → Except DecodeError (Nat × Nat))
    (hc : ∀ (l : List Nat) (n c : Nat), rp l = .ok (n, c) → 1 ≤ c) :
    ∀ (fuel1 fuel2 : Nat) (rem out : List Nat) (lenOut : Nat),
    rem.length ≤ fuel1 → rem.length ≤ fuel2 →
    uRunF rp fuel1 rem out lenOut = uRunF rp fuel2 rem out lenOut := by
  intro fuel1
  induction fuel1 with
  | zero =>
    intro fuel2 rem out lenOut h1 _
    cases rem with
    | nil => cases fuel2 <;> rfl
    | cons b rest => simp at h1
  | succ f ih =>
    intro fuel2 rem out lenOut h1 h2
    cases rem with
    | nil => cases fuel2 <;> rfl
    | cons b rest =>
      cases fuel2 with
      | zero => simp at h2
      | succ f2 =>
        simp only [List.length_cons] at h1 h2
        cases hread : rp (b :: rest) with
        | error e =>
          rw [uRunF_cons_err rp f b rest out lenOut e hread,
            uRunF_cons_err rp f2 b rest out lenOut e hread]
        | ok nc =>
          obtain ⟨size, c⟩ := nc
          rw [uRunF_cons_eq rp f b rest out lenOut size c hread,
            uRunF_cons_eq rp f2 b rest out lenOut size c hread]
          cases hw : writeSlice out lenOut (lenOut + size)
              (sliceL (b :: rest) c (c + size)) with
          | none => rfl
          | some o2 =>
            have hc1 := hc _ _ _ hread
            show Except.map (fun r => ((size : Int) :: r.1, r.2))
                (uRunF rp f ((b :: rest).drop (c + size)) o2 (lenOut + size))
              = Except.map (fun r => ((size : Int) :: r.1, r.2))
                (uRunF rp f2 ((b :: rest).drop (c + size)) o2 (lenOut + size))
            rw [ih f2 ((b :: rest).drop (c + size)) o2 (lenOut + size)
              (by simp only [List.length_drop, List.length_cons]; omega)
              (by simp only [List.length_drop, List.length_cons]; omega)]

theorem uRun_nil (rp : List Nat → Except DecodeError (Nat × Nat))
    (out : List Nat) (lenOut : Nat) : uRun rp [] out lenOut = .ok ([], out, lenOut) := rfl

theorem uRun_cons_none (rp : List Nat → Except DecodeError (Nat × Nat))
    (b : Nat) (rest out : List Nat) (lenOut size c : Nat)
    (hread : rp (b :: rest) = .ok (size, c))
    (hw : writeSlice out lenOut (lenOut + size) (sliceL (b :: rest) c (c + size)) = none) :
    uRun rp (b :: rest) out lenOut = .error .valueError := by
  show uRunF rp (rest.length + 1) (b :: rest) out lenOut = _
  rw [uRunF_cons_eq rp rest.length b rest out lenOut size c hread, hw]

theorem uRun_cons_some (rp : List Nat → Except DecodeError (Nat × Nat))
    (hc : ∀ (l : List Nat) (n c : Nat), rp l = .ok (n, c) → 1 ≤ c)
    (b : Nat) (rest out out2 : List Nat) (lenOut size c : Nat)
    (hread : rp (b :: rest) = .ok (size, c))
    (hw : writeSlice out lenOut (lenOut + size) (sliceL (b :: rest) c (c + size))
      = some out2) :
    uRun rp (b :: rest) out lenOut
      = (uRun rp ((b :: rest).drop (c + size)) out2 (lenOut + size)).map
          (fun r => ((size : Int) :: r.1, r.2)) := by
  show uRunF rp (rest.length + 1) (b :: rest) out lenOut = _
  rw [uRunF_cons_eq rp rest.length b rest out lenOut size c hread, hw]
  show (uRunF rp rest.length ((b :: rest).drop (c + size)) out2 (lenOut + size)).map
      (fun r => ((size : Int) :: r.1, r.2)) = _
  rw [uRunF_fuel rp hc rest.length ((b :: rest).drop (c + size)).length
    ((b :: rest).drop (c + size)) out2 (lenOut + size)
    (by simp only [List.length_drop, List.length_cons]; have := hc _ _ _ hread; omega)
    (le_refl _)]
  rfl

theorem readPrefix15_c (l : List Nat) (n c : Nat) (h : readPrefix15 l = .ok (n, c)) :
    1 ≤ c ∧ c ≤ l.length := by
  cases l with
  | nil => exact absurd h (by simp [readPrefix15])
  | cons b rest =>
    by_cases hb : b = 255
    · subst hb
      rcases rest with _ | ⟨b1, r1⟩
      · exact absurd h (by simp [readPrefix15])
      rcases r1 with _ | ⟨b2, r2⟩
      · exact absurd h (by simp [readPrefix15])
      rcases r2 with _ | ⟨b3, r3⟩
      · exact absurd h (by simp [readPrefix15])
      rcases r3 with _ | ⟨b4, r4⟩
      · exact absurd h (by simp [readPrefix15])
      have hrp : readPrefix15 (255 :: b1 :: b2 :: b3 :: b4 :: r4)
          = .ok (be32val b1 b2 b3 b4, 5) := rfl
      rw [hrp] at h
      injection h with h'
      have hcc := congrArg Prod.snd h'
      simp only at hcc
      simp only [List.length_cons]
      omega
    · have hrp : readPrefix15 (b :: rest) = .ok (b, 1) := by
        show (if b = 255 then _ else _) = _
        rw [if_neg hb]
      rw [hrp] at h
      injection h with h'
      have hcc := congrArg Prod.snd h'
      simp only at hcc
      simp only [List.length_cons]
      omega

theorem readPrefix15_append (l1 l2 : List Nat) (n c : Nat)
    (h : readPrefix15 l1 = .ok (n, c)) : readPrefix15 (l1 ++ l2) = .ok (n, c) := by
  cases l1 with
  | nil => exact absurd h (by simp [readPrefix15])
  | cons b rest =>
    by_cases hb : b = 255
    · subst hb
      rcases rest with _ | ⟨b1, r1⟩
      · exact absurd h (by simp [readPrefix15])
      rcases r1 with _ | ⟨b2, r2⟩
      · exact absurd h (by simp [readPrefix15])
      rcases r2 with _ | ⟨b3, r3⟩
      · exact absurd h (by simp [readPrefix15])
      rcases r3 with _ | ⟨b4, r4⟩
      · exact absurd h (by simp [readPrefix15])
      have hrp : readPrefix15 (255 :: b1 :: b2 :: b3 :: b4 :: r4)
          = .ok (be32val b1 b2 b3 b4, 5) := rfl
      rw [hrp] at h
      injection h with h'
      rw [← h']
      rfl
    · have hrp : readPrefix15 (b :: rest) = .ok (b, 1) := by
        show (if b = 255 then _ else _) = _
        rw [if_neg hb]
      rw [hrp] at h
      injection h with h'
      rw [← h']
      show (if b = 255 then _ else _) = _
      rw [if_neg hb]

theorem readPrefix4_c (l : List Nat) (n c : Nat) (h : readPrefix4 l = .ok (n, c)) :
    1 ≤ c ∧ c ≤ l.length := by
  rcases l with _ | ⟨b1, r1⟩
  · exact absurd h (by simp [readPrefix4])
  rcases r1 with _ | ⟨b2, r2⟩
  · exact absurd h (by simp [readPrefix4])
  rcases r2 with _ | ⟨b3, r3⟩
  · exact absurd h (by simp [readPrefix4])
  rcases r3 with _ | ⟨b4, r4⟩
  · exact absurd h (by simp [readPrefix4])
  have hrp : readPrefix4 (b1 :: b2 :: b3 :: b4 :: r4)
      = .ok (be32val b1 b2 b3 b4, 4) := rfl
  rw [hrp] at h
  injection h with h'
  have hcc := congrArg Prod.snd h'
  simp only at hcc
  simp only [List.length_cons]
  omega

theorem readPrefix4_append (l1 l2 : List Nat) (n c : Nat)
    (h : readPrefix4 l1 = .ok (n, c)) : readPrefix4 (l1 ++ l2) = .ok (n, c) := by
  rcases l1 with _ | ⟨b1, r1⟩
  · exact absurd h (by simp [readPrefix4])
  rcases r1 with _ | ⟨b2, r2⟩
  · exact absurd h (by simp [readPrefix4])
  rcases r2 with _ | ⟨b3, r3⟩
  · exact absurd h (by simp [readPrefix4])
  rcases r3 with _ | ⟨b4, r4⟩
  · exact absurd h (by simp [readPrefix4])
  have hrp : readPrefix4 (b1 :: b2 :: b3 :: b4 :: r4)
      = .ok (be32val b1 b2 b3 b4, 4) := rfl
  rw [hrp] at h
  injection h with h'
  rw [← h']
  rfl

theorem decodeRun4F_fuel : ∀ (fuel1 fuel2 : Nat) (data : List Nat),
    data.length ≤ fuel1 → data.length ≤ fuel2 →
    decodeRun4F fuel1 data = decodeRun4F fuel2 data := by
  intro fuel1
  induction fuel1 with
  | zero =>
    intro fuel2 data h1 _
    cases data with
    | nil => cases fuel2 <;> rfl
    | cons b rest => simp at h1
  | succ f ih =>
    intro fuel2 data h1 h2
    rcases data with _ | ⟨b1, r1⟩
    · cases fuel2 <;> rfl
    cases fuel2 with
    | zero => simp at h2
    | succ f2 =>
      rcases r1 with _ | ⟨b2, r2⟩
      · rfl
      rcases r2 with _ | ⟨b3, r3⟩
      · rfl
      rcases r3 with _ | ⟨b4, r4⟩
      · rfl
      simp only [decodeRun4F]
      by_cases hsz : be32val b1 b2 b3 b4 ≤ r4.length
      · simp only [hsz, if_true]
        rw [ih f2 (r4.drop (be32val b1 b2 b3 b4))
          (by simp only [List.length_drop, List.length_cons] at h1 ⊢; omega)
          (by simp only [List.length_drop, List.length_cons] at h2 ⊢; omega)]
      · simp only [hsz, if_false]

theorem decodeRun4_readPrefix (b : Nat) (rest : List Nat) :
    decodeRun4 (b :: rest)
      = match readPrefix4 (b :: rest) with
        | .error e => .error e
        | .ok sc =>
          if sc.1 ≤ (b :: rest).length - sc.2 then
            (decodeRun4 ((b :: rest).drop (sc.2 + sc.1))).map
              (fun ss => sliceL (b :: rest) sc.2 (sc.2 + sc.1) :: ss)
          else .error .truncated := by
  rcases rest with _ | ⟨b2, r2⟩
  · rfl
  rcases r2 with _ | ⟨b3, r3⟩
  · rfl
  rcases r3 with _ | ⟨b4, r4⟩
  · rfl
  have hrp : readPrefix4 (b :: b2 :: b3 :: b4 :: r4) = .ok (be32val b b2 b3 b4, 4) := rfl
  rw [hrp]
  show decodeRun4F (r4.length + 1 + 1 + 1 + 1) (b :: b2 :: b3 :: b4 :: r4)
    = if be32val b b2 b3 b4 ≤ (b :: b2 :: b3 :: b4 :: r4).length - 4 then
        (decodeRun4 ((b :: b2 :: b3 :: b4 :: r4).drop (4 + be32val b b2 b3 b4))).map
          (fun ss => sliceL (b :: b2 :: b3 :: b4 :: r4) 4 (4 + be32val b b2 b3 b4) :: ss)
      else .error .truncated
  simp only [decodeRun4F]
  have hlen : (b :: b2 :: b3 :: b4 :: r4).length - 4 = r4.length := by
    simp only [List.length_cons]
    omega
  rw [hlen]
  by_cases hsz : be32val b b2 b3 b4 ≤ r4.length
  · rw [if_pos hsz, if_pos hsz]
    have hdrop : (b :: b2 :: b3 :: b4 :: r4).drop (4 + be32val b b2 b3 b4)
        = r4.drop (be32val b b2 b3 b4) := by
      rw [← List.drop_drop]
      rfl
    have hslice : sliceL (b :: b2 :: b3 :: b4 :: r4) 4 (4 + be32val b b2 b3 b4)
        = r4.take (be32val b b2 b3 b4) := by
      rw [sliceL, show 4 + be32val b b2 b3 b4 - 4 = be32val b b2 b3 b4 from by omega]
      rfl
    rw [hdrop, hslice]
    rw [decodeRun4, decodeRun4F_fuel _ _ _
      (by simp only [List.length_drop, List.length_cons]; omega) (le_refl _)]
  · rw [if_neg hsz, if_neg hsz]

/-! Inversion of the strict decoders through their prefix readers, and the
transfer of a strict parse onto the line-faithful loop. -/

theorem uDecode_inv (rp : List Nat → Except DecodeError (Nat × Nat))
    (D : List Nat → Except DecodeError (List (List Nat)))
    (hchar : ∀ (b : Nat) (rest : List Nat),
      D (b :: rest)
        = match rp (b :: rest) with
          | .error e => .error e
          | .ok sc =>
            if sc.1 ≤ (b :: rest).length - sc.2 then
              (D ((b :: rest).drop (sc.2 + sc.1))).map
                (fun ss => sliceL (b :: rest) sc.2 (sc.2 + sc.1) :: ss)
            else .error .truncated)
    (b : Nat) (rest : List Nat) (ss0 : List (List Nat))
    (h : D (b :: rest) = .ok ss0) :
    ∃ size c tt, rp (b :: rest) = .ok (size, c) ∧ size ≤ (b :: rest).length - c
      ∧ ss0 = sliceL (b :: rest) c (c + size) :: tt
      ∧ D ((b :: rest).drop (c + size)) = .ok tt := by
  rw [hchar b rest] at h
  cases hread : rp (b :: rest) with
  | error e =>
    rw [hread] at h
    exact absurd h (by simp)
  | ok sc =>
    obtain ⟨size, c⟩ := sc
    rw [hread] at h
    have h' : (if size ≤ (b :: rest).length - c then
        (D ((b :: rest).drop (c + size))).map
          (fun ss => sliceL (b :: rest) c (c + size) :: ss)
      else Except.error DecodeError.truncated) = Except.ok ss0 := h
    by_cases hif : size ≤ (b :: rest).length - c
    · rw [if_pos hif] at h'
      cases hres : D ((b :: rest).drop (c + size)) with
      | error e =>
        rw [hres] at h'
        exact absurd h' (by simp [Except.map])
      | ok tt =>
        rw [hres] at h'
        simp only [Except.map] at h'
        injection h' with h''
        exact ⟨size, c, tt, rfl, hif, h''.symm, hres⟩
    · rw [if_neg hif] at h'
      exact absurd h' (by simp)

theorem uDecode_size (rp : List Nat → Except DecodeError (Nat × Nat))
    (D : List Nat → Except DecodeError (List (List Nat)))
    (hnil : D [] = .ok [])
    (hchar : ∀ (b : Nat) (rest : List Nat),
      D (b :: rest)
        = match rp (b :: rest) with
          | .error e => .error e
          | .ok sc =>
            if sc.1 ≤ (b :: rest).length - sc.2 then
              (D ((b :: rest).drop (sc.2 + sc.1))).map
                (fun ss => sliceL (b :: rest) sc.2 (sc.2 + sc.1) :: ss)
            else .error .truncated) :
    ∀ (ss : List (List Nat)) (rem : List Nat), D rem = .ok ss →
      ss.flatten.length ≤ rem.length := by
  intro ss
  induction ss with
  | nil =>
    intro rem _
    simp
  | cons s ss' ih =>
    intro rem hD
    cases rem with
    | nil =>
      rw [hnil] at hD
      exact absurd hD (by simp)
    | cons b rest =>
      obtain ⟨size, c, tt, hread, hif, hcons, hrec⟩ := uDecode_inv rp D hchar b rest _ hD
      injection hcons with hs htt
      have hm := ih ((b :: rest).drop (c + size)) (htt ▸ hrec)
      have hslen : s.length ≤ size := by
        rw [hs, sliceL]
        simp only [List.length_take, List.length_drop]
        omega
      simp only [List.length_drop, List.length_cons] at hm hif ⊢
      simp only [List.flatten_cons, List.length_append]
      omega

/-- Two consecutive in-bounds writes tile the buffer: writing s at lenOut and
then flat2 right after it leaves the buffer spliced with s ++ flat2. -/
theorem splice_tile (out s flat2 : List Nat) (lenOut : Nat)
    (h : lenOut + s.length ≤ out.length) :
    (out.take lenOut ++ s ++ out.drop (lenOut + s.length)).take (lenOut + s.length)
        ++ flat2
        ++ (out.take lenOut ++ s ++ out.drop (lenOut + s.length)).drop
            (lenOut + s.length + flat2.length)
      = out.take lenOut ++ (s ++ flat2) ++ out.drop (lenOut + (s.length + flat2.length)) := by
  have hlenA : (out.take lenOut ++ s).length = lenOut + s.length := by
    simp only [List.length_append, List.length_take]
    omega
  have h1 : (out.take lenOut ++ s ++ out.drop (lenOut + s.length)).take (lenOut + s.length)
      = out.take lenOut ++ s := List.take_left' hlenA
  have h2 : (out.take lenOut ++ s ++ out.drop (lenOut + s.length)).drop
      (lenOut + s.length + flat2.length) = out.drop (lenOut + s.length + flat2.length) := by
    rw [List.drop_append_eq_append_drop, hlenA]
    rw [show (out.take lenOut ++ s).drop (lenOut + s.length + flat2.length) = [] from
      List.drop_eq_nil_iff.mpr (by rw [hlenA]; omega)]
    rw [List.nil_append]
    rw [show lenOut + s.length + flat2.length - (lenOut + s.length) = flat2.length from by
      omega]
    rw [List.drop_drop]
  rw [h1, h2]
  rw [show lenOut + s.length + flat2.length = lenOut + (s.length + flat2.length) from by
    omega]
  simp only [List.append_assoc]

theorem uRunF_inv (rp : List Nat → Except DecodeError (Nat × Nat)) :
    ∀ (fuel : Nat) (rem out : List Nat) (lenOut : Nat)
    (counts : List Int) (out2 : List Nat) (len2 : Nat),
    uRunF rp fuel rem out lenOut = .ok (counts, out2, len2) →
    (∀ x ∈ counts, 0 ≤ x) ∧ (len2 : Int) = (lenOut : Int) + counts.sum
      ∧ out2.length = out.length := by
  intro fuel
  induction fuel with
  | zero =>
    intro rem out lenOut counts out2 len2 h
    cases rem with
    | nil =>
      have h' : (Except.ok (([] : List Int), out, lenOut)
          : Except DecodeError (List Int × List Nat × Nat)) = .ok (counts, out2, len2) := h
      injection h' with h''
      injection h'' with hA hB
      injection hB with hB1 hB2
      subst hA
      subst hB1
      subst hB2
      refine ⟨by simp, by simp, rfl⟩
    | cons b rest =>
      have h' : (Except.error DecodeError.truncated
          : Except DecodeError (List Int × List Nat × Nat)) = .ok (counts, out2, len2) := h
      exact absurd h' (by simp)
  | succ f ih =>
    intro rem out lenOut counts out2 len2 h
    cases rem with
    | nil =>
      have h' : (Except.ok (([] : List Int), out, lenOut)
          : Except DecodeError (List Int × List Nat × Nat)) = .ok (counts, out2, len2) := h
      injection h' with h''
      injection h'' with hA hB
      injection hB with hB1 hB2
      subst hA
      subst hB1
      subst hB2
      refine ⟨by simp, by simp, rfl⟩
    | cons b rest =>
      cases hread : rp (b :: rest) with
      | error e =>
        rw [uRunF_cons_err rp f b rest out lenOut e hread] at h
        exact absurd h (by simp)
      | ok nc =>
        obtain ⟨size, c⟩ := nc
        rw [uRunF_cons_eq rp f b rest out lenOut size c hread] at h
        cases hw : writeSlice out lenOut (lenOut + size)
            (sliceL (b :: rest) c (c + size)) with
        | none =>
          rw [hw] at h
          have h' : (Except.error DecodeError.valueError
              : Except DecodeError (List Int × List Nat × Nat)) = .ok (counts, out2, len2) := h
          exact absurd h' (by simp)
        | some o2 =>
          rw [hw] at h
          have h' : (uRunF rp f ((b :: rest).drop (c + size)) o2 (lenOut + size)).map
              (fun r => ((size : Int) :: r.1, r.2)) = Except.ok (counts, out2, len2) := h
          cases hres : uRunF rp f ((b :: rest).drop (c + size)) o2 (lenOut + size) with
          | error e =>
            rw [hres] at h'
            exact absurd h' (by simp [Except.map])
          | ok r =>
            obtain ⟨cs, o3, l3⟩ := r
            rw [hres] at h'
            simp only [Except.map] at h'
            injection h' with h''
            injection h'' with hA hB
            injection hB with hB1 hB2
            subst hA
            subst hB1
            subst hB2
            obtain ⟨ih1, ih2, ih3⟩ := ih _ o2 (lenOut + size) cs o3 l3 hres
            have hwl := writeSlice_length out lenOut (lenOut + size) _ o2 hw
            refine ⟨?_, ?_, ?_⟩
            · intro x hx
              rcases List.mem_cons.mp hx with hx | hx
              · subst hx
                exact Int.natCast_nonneg size
              · exact ih1 x hx
            · simp only [List.sum_cons]
              push_cast at ih2 ⊢
              omega
            · rw [ih3, hwl]

/-- Transfer of a complete strict parse onto the line-faithful loop: if the
strict decoder accepts rem1 as a whole record stream, the loop writes exactly
its strings into the buffer and continues on rem2 with the counts
prepended. -/
theorem uRun_split (rp : List Nat → Except DecodeError (Nat × Nat))
    (D : List Nat → Except DecodeError (List (List Nat)))
    (hc : ∀ (l : List Nat) (n c : Nat), rp l = .ok (n, c) → 1 ≤ c)
    (hcle : ∀ (l : List Nat) (n c : Nat), rp l = .ok (n, c) → c ≤ l.length)
    (happ : ∀ (l1 l2 : List Nat) (n c : Nat), rp l1 = .ok (n, c) →
      rp (l1 ++ l2) = .ok (n, c))
    (hnil : D [] = .ok [])
    (hchar : ∀ (b : Nat) (rest : List Nat),
      D (b :: rest)
        = match rp (b :: rest) with
          | .error e => .error e
          | .ok sc =>
            if sc.1 ≤ (b :: rest).length - sc.2 then
              (D ((b :: rest).drop (sc.2 + sc.1))).map
                (fun ss => sliceL (b :: rest) sc.2 (sc.2 + sc.1) :: ss)
            else .error .truncated) :
    ∀ (ss : List (List Nat)) (rem1 rem2 out : List Nat) (lenOut : Nat),
    D rem1 = .ok ss → lenOut + ss.flatten.length ≤ out.length →
    uRun rp (rem1 ++ rem2) out lenOut
      = (uRun rp rem2
            (out.take lenOut ++ ss.flatten ++ out.drop (lenOut + ss.flatten.length))
            (lenOut + ss.flatten.length)).map
          (fun r => (ss.map (fun s => (s.length : Int)) ++ r.1, r.2)) := by
  intro ss
  induction ss with
  | nil =>
    intro rem1 rem2 out lenOut hD _
    have hrem1 : rem1 = [] := by
      cases rem1 with
      | nil => rfl
      | cons b rest =>
        obtain ⟨size, c, tt, _, _, hcons, _⟩ := uDecode_inv rp D hchar b rest [] hD
        exact absurd hcons (by simp)
    subst hrem1
    simp only [List.nil_append, List.flatten_nil, List.length_nil, Nat.add_zero,
      List.map_nil, List.append_nil]
    rw [List.take_append_drop]
    have hfun : (fun r : List Int × List Nat × Nat => (r.1, r.2)) = fun r => r := rfl
    rw [hfun, except_map_id]
  | cons s ss' ih =>
    intro rem1 rem2 out lenOut hD hroom
    cases rem1 with
    | nil =>
      rw [hnil] at hD
      exact absurd hD (by simp)
    | cons b rest =>
      obtain ⟨size, c, tt, hread, hif, hcons, hrec⟩ := uDecode_inv rp D hchar b rest _ hD
      injection hcons with hs htt
      have hc1 := hc _ _ _ hread
      have hcle1 := hcle _ _ _ hread
      have hcs : c + size ≤ (b :: rest).length := by omega
      have hslen : s.length = size := by
        rw [hs, sliceL]
        simp only [List.length_take, List.length_drop]
        omega
      have hfl : (s :: ss').flatten.length = s.length + ss'.flatten.length := by
        simp
      rw [hfl] at hroom
      have hwbound : lenOut + s.length ≤ out.length := by omega
      rw [List.cons_append]
      have happ2 : rp (b :: (rest ++ rem2)) = .ok (size, c) := by
        have h0 := happ (b :: rest) rem2 size c hread
        rw [List.cons_append] at h0
        exact h0
      have hsl2 : sliceL (b :: (rest ++ rem2)) c (c + size) = s := by
        rw [← List.cons_append, sliceL_append_left (b :: rest) rem2 c (c + size) hcs, ← hs]
      have hw : writeSlice out lenOut (lenOut + size)
          (sliceL (b :: (rest ++ rem2)) c (c + size))
          = some (out.take lenOut ++ s ++ out.drop (lenOut + size)) := by
        rw [hsl2]
        have h0 := writeSlice_exact out s lenOut hwbound
        rw [hslen] at h0
        exact h0
      rw [uRun_cons_some rp hc b (rest ++ rem2) out _ lenOut size c happ2 hw]
      rw [show (b :: (rest ++ rem2)).drop (c + size) = (b :: rest).drop (c + size) ++ rem2
        from by
          rw [← List.cons_append]
          exact drop_append_left (b :: rest) rem2 (c + size) hcs]
      have hrec' : D ((b :: rest).drop (c + size)) = .ok ss' := by
        rw [htt]
        exact hrec
      have hout2len : (out.take lenOut ++ s ++ out.drop (lenOut + size)).length
          = out.length := by
        simp only [List.length_append, List.length_take, List.length_drop]
        omega
      rw [ih ((b :: rest).drop (c + size)) rem2
        (out.take lenOut ++ s ++ out.drop (lenOut + size)) (lenOut + size) hrec'
        (by rw [hout2len]; omega)]
      rw [except_map_map]
      rw [← hslen]
      rw [splice_tile out s ss'.flatten lenOut hwbound]
      rw [show lenOut + s.length + ss'.flatten.length = lenOut + (s :: ss').flatten.length
        from by rw [hfl]; omega]
      rw [show lenOut + (s.length + ss'.flatten.length) = lenOut + (s :: ss').flatten.length
        from by rw [hfl]]
      rw [show s ++ ss'.flatten = (s :: ss').flatten from by simp]
      congr 1

/-- Behaviour of the loop on a final truncated record: the clamped content
slice t is strictly shorter than the declared size n, so the target region of
the slice assignment is strictly longer than the source.  With any source
length other than one the assignment raises ValueError; with exactly one
remaining content byte it broadcasts, filling the clamped target with that
byte while len_outdata still advances by the full declared size. -/
theorem uRun_lastRecord (rp : List Nat → Except DecodeError (Nat × Nat))
    (hc : ∀ (l : List Nat) (n c : Nat), rp l = .ok (n, c) → 1 ≤ c)
    (rest2 t out2 : List Nat) (n c L : Nat)
    (hrp : rp rest2 = .ok (n, c))
    (hsl : sliceL rest2 c (c + n) = t)
    (hlen2 : rest2.length = c + t.length)
    (ht : t.length < n)
    (hLN : L + c + t.length ≤ out2.length) :
    (t.length ≠ 1 → uRun rp rest2 out2 L = .error .valueError)
    ∧ (∀ b, t = [b] → uRun rp rest2 out2 L
        = .ok ([(n : Int)],
            out2.take L ++ List.replicate (min n (out2.length - L)) b
              ++ out2.drop (L + min n (out2.length - L)),
            L + n)) := by
  have hc0 := hc _ _ _ hrp
  cases rest2 with
  | nil =>
    simp only [List.length_nil] at hlen2
    omega
  | cons b0 rest =>
    have hws := writeSlice_short out2 t L (L + n) (by omega)
      (by omega : t.length < max L (min (L + n) out2.length) - L)
    have hmax : max L (min (L + n) out2.length) = L + min n (out2.length - L) := by
      omega
    constructor
    · intro hne
      have hw := hws.1 hne
      rw [← hsl] at hw
      exact uRun_cons_none rp b0 rest out2 L n c hrp hw
    · intro bb hbb
      subst hbb
      have hw := hws.2 rfl
      rw [hmax] at hw
      rw [show L + min n (out2.length - L) - L = min n (out2.length - L) from by omega] at hw
      simp only [List.getD_cons_zero] at hw
      rw [← hsl] at hw
      rw [uRun_cons_some rp hc b0 rest out2 _ L n c hrp hw]
      rw [show (b0 :: rest).drop (c + n) = [] from List.drop_eq_nil_iff.mpr (by
        rw [hlen2]
        simp only [List.length_cons, List.length_nil]
        omega)]
      rw [uRun_nil]
      rfl

/-- Reading the canonical length prefix followed by anything: the declared
size and the prefix length come back, and the remainder starts right after
the prefix. -/
theorem lenPrefix15_read (n : Nat) (t : List Nat) (hn : n < 2 ^ 32) :
    readPrefix15 (lenPrefix15 n ++ t) = .ok (n, (lenPrefix15 n).length)
    ∧ (lenPrefix15 n ++ t).drop (lenPrefix15 n).length = t := by
  refine ⟨?_, List.drop_left _ _⟩
  by_cases hlt : n < 255
  · rw [show lenPrefix15 n = [n] from by simp [lenPrefix15, hlt]]
    show (if n = 255 then _ else _) = _
    rw [if_neg (by omega : ¬ n = 255)]
    rfl
  · rw [show lenPrefix15 n = 255 :: be32 n from by simp [lenPrefix15, hlt]]
    have hz : readPrefix15 ((255 :: be32 n) ++ t)
        = .ok (be32val (n / 2 ^ 24 % 256) (n / 2 ^ 16 % 256) (n / 2 ^ 8 % 256) (n % 256), 5)
        := by
      simp only [be32, List.cons_append, List.nil_append]
      rfl
    rw [hz, be32val_be32 n hn]
    rfl

/-- Processing a canonical run followed by anything: the loop consumes the
run, writes its strings at the front of the buffer, and continues on the
remainder with the true counts accumulated. -/
theorem uBasket15_split (ss : List (List Nat)) (rest2 : List Nat) (fill : Nat)
    (hwf : ∀ s ∈ ss, s.length < 2 ^ 32) :
    uBasket15 (encRun15 ss ++ rest2) fill
      = (uRun readPrefix15 rest2
            (ss.flatten
              ++ (List.replicate (encRun15 ss ++ rest2).length fill).drop ss.flatten.length)
            ss.flatten.length).map
          (fun r => ⟨offsetsOf (ss.map (fun s => (s.length : Int)) ++ r.1),
              r.2.1.take r.2.2⟩) := by
  have hD := decodeRun15_encRun ss hwf
  have hsize := uDecode_size readPrefix15 decodeRun15 rfl decodeRun15_readPrefix ss
      (encRun15 ss) hD
  have hroom : 0 + ss.flatten.length
      ≤ (List.replicate (encRun15 ss ++ rest2).length fill).length := by
    simp only [List.length_replicate, List.length_append]
    omega
  have hsplit := uRun_split readPrefix15 decodeRun15
      (fun l n c hx => (readPrefix15_c l n c hx).1)
      (fun l n c hx => (readPrefix15_c l n c hx).2)
      readPrefix15_append rfl decodeRun15_readPrefix ss (encRun15 ss) rest2
      (List.replicate (encRun15 ss ++ rest2).length fill) 0 hD hroom
  show (uRun readPrefix15 (encRun15 ss ++ rest2)
      (List.replicate (encRun15 ss ++ rest2).length fill) 0).map
      (fun r => (⟨offsetsOf r.1, r.2.1.take r.2.2⟩ : StringArray)) = _
  rw [hsplit, except_map_map]
  simp only [List.take_zero, List.nil_append, Nat.zero_add]

/-- Agreement on cleanly parsed buffers, "1-5" mode: whenever the strict
decoder accepts the whole buffer, the line-faithful pipeline returns exactly
the column of the parsed strings, for every fill byte. -/
theorem uBasket15_agree (data : List Nat) (ss : List (List Nat)) (fill : Nat)
    (h : decodeRun15 data = .ok ss) : uBasket15 data fill = .ok (column ss) := by
  have hsize := uDecode_size readPrefix15 decodeRun15 rfl decodeRun15_readPrefix ss data h
  have hroom : 0 + ss.flatten.length ≤ (List.replicate data.length fill).length := by
    simp only [List.length_replicate]
    omega
  have hsplit := uRun_split readPrefix15 decodeRun15
      (fun l n c hx => (readPrefix15_c l n c hx).1)
      (fun l n c hx => (readPrefix15_c l n c hx).2)
      readPrefix15_append rfl decodeRun15_readPrefix ss data []
      (List.replicate data.length fill) 0 h hroom
  rw [List.append_nil] at hsplit
  rw [uRun_nil] at hsplit
  show (uRun readPrefix15 data (List.replicate data.length fill) 0).map
      (fun r => (⟨offsetsOf r.1, r.2.1.take r.2.2⟩ : StringArray)) = _
  rw [hsplit]
  simp only [Except.map, List.append_nil]
  rw [column]
  congr 1
  simp only [Nat.zero_add, List.take_zero, List.nil_append]
  rw [List.take_left]

/-- Agreement on cleanly parsed buffers, "4" mode. -/
theorem uBasket4_agree (data : List Nat) (ss : List (List Nat)) (fill : Nat)
    (h : decodeRun4 data = .ok ss) : uBasket4 data fill = .ok (column ss) := by
  have hsize := uDecode_size readPrefix4 decodeRun4 rfl decodeRun4_readPrefix ss data h
  have hroom : 0 + ss.flatten.length ≤ (List.replicate data.length fill).length := by
    simp only [List.length_replicate]
    omega
  have hsplit := uRun_split readPrefix4 decodeRun4
      (fun l n c hx => (readPrefix4_c l n c hx).1)
      (fun l n c hx => (readPrefix4_c l n c hx).2)
      readPrefix4_append rfl decodeRun4_readPrefix ss data []
      (List.replicate data.length fill) 0 h hroom
  rw [List.append_nil] at hsplit
  rw [uRun_nil] at hsplit
  show (uRun readPrefix4 data (List.replicate data.length fill) 0).map
      (fun r => (⟨offsetsOf r.1, r.2.1.take r.2.2⟩ : StringArray)) = _
  rw [hsplit]
  simp only [Except.map, List.append_nil]
  rw [column]
  congr 1
  simp only [Nat.zero_add, List.take_zero, List.nil_append]
  rw [List.take_left]

/-- The final content slice after a broadcast: taking len_outdata bytes of
the buffer spliced with the replicated byte yields the previous content
followed by exactly the clamped replication. -/
theorem bcast_content (flat R : List Nat) (n : Nat) (b : Nat) :
    ((flat ++ R).take flat.length
      ++ List.replicate (min n ((flat ++ R).length - flat.length)) b
      ++ (flat ++ R).drop (flat.length + min n ((flat ++ R).length - flat.length))).take
        (flat.length + n)
    = flat ++ List.replicate (min n ((flat ++ R).length - flat.length)) b := by
  have hRlen : (flat ++ R).length - flat.length = R.length := by
    simp only [List.length_append]
    omega
  rw [hRlen]
  rw [List.take_left]
  have hdrop : (flat ++ R).drop (flat.length + min n R.length)
      = R.drop (min n R.length) := by
    rw [List.drop_append_eq_append_drop]
    rw [show flat.drop (flat.length + min n R.length) = [] from
      List.drop_eq_nil_iff.mpr (by omega)]
    rw [List.nil_append,
      show flat.length + min n R.length - flat.length = min n R.length from by omega]
  rw [hdrop]
  rw [List.append_assoc]
  rw [List.take_append_eq_append_take]
  rw [List.take_of_length_le (by omega : flat.length ≤ flat.length + n)]
  rw [show flat.length + n - flat.length = n from by omega]
  congr 1
  rw [List.take_append_eq_append_take]
  rw [List.take_of_length_le
    (by rw [List.length_replicate]; omega : (List.replicate (min n R.length) b).length ≤ n)]
  rw [show n - (List.replicate (min n R.length) b).length = n - min n R.length from by
    rw [List.length_replicate]]
  by_cases hcase : n ≤ R.length
  · rw [show (R.drop (min n R.length)).take (n - min n R.length) = [] from by
      rw [min_eq_left hcase, Nat.sub_self, List.take_zero]]
    rw [List.append_nil]
  · rw [show (R.drop (min n R.length)).take (n - min n R.length) = [] from by
      rw [min_eq_right (by omega : R.length ≤ n), List.drop_length, List.take_nil]]
    rw [List.append_nil]

theorem uRun_cons_err (rp : List Nat → Except DecodeError (Nat × Nat))
    (b : Nat) (rest out : List Nat) (lenOut : Nat) (e : DecodeError)
    (hread : rp (b :: rest) = .error e) :
    uRun rp (b :: rest) out lenOut = .error e := by
  show uRunF rp (rest.length + 1) (b :: rest) out lenOut = _
  exact uRunF_cons_err rp rest.length b rest out lenOut e hread

/-- A canonical run followed by a record whose declared length exceeds the
remaining bytes, with any number of remaining content bytes other than one:
the short slice fails to broadcast and the pipeline raises ValueError. -/
theorem uBasket15_trunc_err (ss : List (List Nat)) (n : Nat) (t : List Nat) (fill : Nat)
    (hwf : ∀ s ∈ ss, s.length < 2 ^ 32) (hn : n < 2 ^ 32) (ht : t.length < n)
    (hne : t.length ≠ 1) :
    uBasket15 (encRun15 ss ++ (lenPrefix15 n ++ t)) fill = .error .valueError := by
  rw [uBasket15_split ss (lenPrefix15 n ++ t) fill hwf]
  obtain ⟨hrp, hdrop⟩ := lenPrefix15_read n t hn
  have hsl : sliceL (lenPrefix15 n ++ t) (lenPrefix15 n).length
      ((lenPrefix15 n).length + n) = t := by
    rw [sliceL, hdrop,
      show (lenPrefix15 n).length + n - (lenPrefix15 n).length = n from by omega]
    exact List.take_of_length_le (by omega)
  have hsize := uDecode_size readPrefix15 decodeRun15 rfl decodeRun15_readPrefix ss
    (encRun15 ss) (decodeRun15_encRun ss hwf)
  have hLN : ss.flatten.length + (lenPrefix15 n).length + t.length
      ≤ (ss.flatten
          ++ (List.replicate (encRun15 ss ++ (lenPrefix15 n ++ t)).length fill).drop
            ss.flatten.length).length := by
    simp only [List.length_append, List.length_drop, List.length_replicate]
    omega
  rw [(uRun_lastRecord readPrefix15
      (fun l n' c' hx => (readPrefix15_c l n' c' hx).1)
      (lenPrefix15 n ++ t) t
      (ss.flatten
        ++ (List.replicate (encRun15 ss ++ (lenPrefix15 n ++ t)).length fill).drop
          ss.flatten.length)
      n (lenPrefix15 n).length ss.flatten.length hrp hsl
      (List.length_append _ _) ht hLN).1 hne]
  rfl

/-- A canonical run followed by a record whose declared length exceeds the
single remaining content byte: the shape-(1,) source broadcasts, so the
pipeline silently returns a column whose last count is the full declared
size while the content holds only the clamped replication of that byte. -/
theorem uBasket15_trunc_bcast (ss : List (List Nat)) (n b : Nat) (fill : Nat)
    (hwf : ∀ s ∈ ss, s.length < 2 ^ 32) (hn : n < 2 ^ 32) (hb1 : 1 < n) :
    uBasket15 (encRun15 ss ++ (lenPrefix15 n ++ [b])) fill
      = .ok ⟨offsetsOf (ss.map (fun s => (s.length : Int)) ++ [(n : Int)]),
          ss.flatten ++ List.replicate
            (min n ((encRun15 ss ++ (lenPrefix15 n ++ [b])).length - ss.flatten.length))
            b⟩ := by
  rw [uBasket15_split ss (lenPrefix15 n ++ [b]) fill hwf]
  obtain ⟨hrp, hdrop⟩ := lenPrefix15_read n [b] hn
  have hsl : sliceL (lenPrefix15 n ++ [b]) (lenPrefix15 n).length
      ((lenPrefix15 n).length + n) = [b] := by
    rw [sliceL, hdrop,
      show (lenPrefix15 n).length + n - (lenPrefix15 n).length = n from by omega]
    exact List.take_of_length_le (by simp only [List.length_cons, List.length_nil]; omega)
  have hsize := uDecode_size readPrefix15 decodeRun15 rfl decodeRun15_readPrefix ss
    (encRun15 ss) (decodeRun15_encRun ss hwf)
  have hLN : ss.flatten.length + (lenPrefix15 n).length + ([b] : List Nat).length
      ≤ (ss.flatten
          ++ (List.replicate (encRun15 ss ++ (lenPrefix15 n ++ [b])).length fill).drop
            ss.flatten.length).length := by
    simp only [List.length_append, List.length_drop, List.length_replicate,
      List.length_cons, List.length_nil]
    omega
  rw [(uRun_lastRecord readPrefix15
      (fun l n' c' hx => (readPrefix15_c l n' c' hx).1)
      (lenPrefix15 n ++ [b]) [b]
      (ss.flatten
        ++ (List.replicate (encRun15 ss ++ (lenPrefix15 n ++ [b])).length fill).drop
          ss.flatten.length)
      n (lenPrefix15 n).length ss.flatten.length hrp hsl
      (List.length_append _ _)
      (by simp only [List.length_cons, List.length_nil]; omega) hLN).2 b rfl]
  simp only [Except.map]
  have hcont := bcast_content ss.flatten
      ((List.replicate (encRun15 ss ++ (lenPrefix15 n ++ [b])).length fill).drop
        ss.flatten.length) n b
  have hminEq : (ss.flatten
      ++ (List.replicate (encRun15 ss ++ (lenPrefix15 n ++ [b])).length fill).drop
        ss.flatten.length).length - ss.flatten.length
      = (encRun15 ss ++ (lenPrefix15 n ++ [b])).length - ss.flatten.length := by
    simp only [List.length_append, List.length_drop, List.length_replicate,
      List.length_cons, List.length_nil]
    omega
  rw [hminEq] at hcont
  rw [hminEq]
  rw [hcont]

/-- A canonical run followed by a 255 escape byte with fewer than four bytes
after it: the 4-byte length read is a struct.error. -/
theorem uBasket15_prefix_err (ss : List (List Nat)) (t4 : List Nat) (fill : Nat)
    (hwf : ∀ s ∈ ss, s.length < 2 ^ 32) (h4 : t4.length < 4) :
    uBasket15 (encRun15 ss ++ (255 :: t4)) fill = .error .truncated := by
  rw [uBasket15_split ss (255 :: t4) fill hwf]
  have hrp : readPrefix15 (255 :: t4) = .error .truncated := by
    rcases t4 with _ | ⟨a1, u1⟩
    · rfl
    rcases u1 with _ | ⟨a2, u2⟩
    · rfl
    rcases u2 with _ | ⟨a3, u3⟩
    · rfl
    rcases u3 with _ | ⟨a4, u4⟩
    · rfl
    · simp only [List.length_cons] at h4
      omega
  rw [uRun_cons_err readPrefix15 255 t4 _ _ .truncated hrp]
  rfl

/-- The "4" analogue of the broadcast failure: a single record whose declared
length exceeds the remaining bytes, with any source length other than one,
raises ValueError. -/
theorem uBasket4_trunc_err (n : Nat) (t : List Nat) (fill : Nat)
    (hn : n < 2 ^ 32) (ht : t.length < n) (hne : t.length ≠ 1) :
    uBasket4 (be32 n ++ t) fill = .error .valueError := by
  have hform : be32 n ++ t
      = n / 2 ^ 24 % 256 :: n / 2 ^ 16 % 256 :: n / 2 ^ 8 % 256 :: n % 256 :: t := by
    simp [be32]
  have hrp : readPrefix4 (be32 n ++ t) = .ok (n, 4) := by
    rw [hform]
    show Except.ok (be32val (n / 2 ^ 24 % 256) (n / 2 ^ 16 % 256) (n / 2 ^ 8 % 256)
      (n % 256), 4) = _
    rw [be32val_be32 n hn]
  have hsl : sliceL (be32 n ++ t) 4 (4 + n) = t := by
    rw [sliceL]
    rw [show (be32 n ++ t).drop 4 = t from by rw [hform]; rfl]
    rw [show 4 + n - 4 = n from by omega]
    exact List.take_of_length_le (by omega)
  have hlen : (be32 n ++ t).length = 4 + t.length := by
    rw [hform]
    simp only [List.length_cons]
    omega
  show (uRun readPrefix4 (be32 n ++ t)
      (List.replicate (be32 n ++ t).length fill) 0).map
      (fun r => (⟨offsetsOf r.1, r.2.1.take r.2.2⟩ : StringArray)) = _
  rw [(uRun_lastRecord readPrefix4
      (fun l n' c' hx => (readPrefix4_c l n' c' hx).1)
      (be32 n ++ t) t (List.replicate (be32 n ++ t).length fill) n 4 0 hrp hsl hlen ht
      (by simp only [List.length_replicate]; omega)).1 hne]
  rfl

/-- C1: for every valid request and every contiguous gap-free chunk partition
of the same underlying strings, the stitched column equals the column obtained
by decoding exactly that logical range as one single unpartitioned chunk; in
particular the stitched output is identical across different chunk boundary
sets, and stitching the full range equals the single-chunk decode of the whole
data.  The fill values witness that the uninitialized output buffer never
leaks. -/
theorem C1_stitch_equals_single_chunk_decode
    (ss : List (List Nat)) (p p2 : List (List (List Nat))) (es et : Nat)
    (fill fill2 : Int) (hp : p.flatten = ss) (hp2 : p2.flatten = ss)
    (hwf : ∀ s ∈ ss, s.length < 2 ^ 32) (h1 : es < et) (h2 : et ≤ ss.length) :
    stitchColumn (p.map column) (0 :: stopsFrom 0 p) es et fill
        = column (sliceL ss es et)
    ∧ basket_array "1-5" 0 (encRun15 (sliceL ss es et)) none
        = .ok (column (sliceL ss es et))
    ∧ stitchColumn (p2.map column) (0 :: stopsFrom 0 p2) es et fill2
        = stitchColumn (p.map column) (0 :: stopsFrom 0 p) es et fill
    ∧ (es = 0 → et = ss.length →
        stitchColumn (p.map column) (0 :: stopsFrom 0 p) es et fill = column ss) := by
  have hmain := stitch_eq_column ss p es et fill hp h1 h2
  have hmain2 := stitch_eq_column ss p2 es et fill2 hp2 h1 h2
  refine ⟨hmain, ?_, by rw [hmain, hmain2], ?_⟩
  · have hsub : ∀ s ∈ sliceL ss es et, s.length < 2 ^ 32 := by
      intro s hs
      apply hwf
      rw [sliceL] at hs
      exact List.drop_subset _ _ (List.take_subset _ _ hs)
    have hdec := decodeRun15_encRun (sliceL ss es et) hsub
    show (decodeRun15 (encRun15 (sliceL ss es et))).map column = _
    rw [hdec]
    rfl
  · intro hes het2
    subst hes
    subst het2
    rw [hmain]
    congr 1
    simp [sliceL]

theorem C1_witness :
    stitchColumn ([[[1]], [[2, 2]]].map column) (0 :: stopsFrom 0 [[[1]], [[2, 2]]]) 0 2 5
        = column (sliceL [[1], [2, 2]] 0 2)
    ∧ basket_array "1-5" 0 (encRun15 (sliceL [[1], [2, 2]] 0 2)) none
        = .ok (column (sliceL [[1], [2, 2]] 0 2))
    ∧ stitchColumn ([[[1], [2, 2]]].map column) (0 :: stopsFrom 0 [[[1], [2, 2]]]) 0 2 7
        = stitchColumn ([[[1]], [[2, 2]]].map column) (0 :: stopsFrom 0 [[[1]], [[2, 2]]]) 0 2 5
    ∧ (0 = 0 → 2 = [[1], [2, 2]].length →
        stitchColumn ([[[1]], [[2, 2]]].map column) (0 :: stopsFrom 0 [[[1]], [[2, 2]]]) 0 2 5
          = column [[1], [2, 2]]) :=
  C1_stitch_equals_single_chunk_decode [[1], [2, 2]] [[[1]], [[2, 2]]] [[[1], [2, 2]]]
    0 2 5 7 rfl rfl (by decide) (by decide) (by decide)

/-- C2 counterexample: in indexed mode an out-of-buffer content stop (9 beyond
the 6-byte payload) is silently dropped from the mask; the decode succeeds and
returns a short column instead of failing. -/
theorem C2_counterexample_silent_clamp :
    basket_array "4" 0 [0, 0, 0, 5, 65, 66] (some [0, 9]) = .ok ⟨[0, 5], [65, 66]⟩
    ∧ ([0, 0, 0, 5, 65, 66] : List Nat).length < 9
    ∧ (StringArray.mk [0, 5] [65, 66]).content.length = 2 := by
  decide

/-- C2 amended: in unindexed mode (either length mode) a declared length that
exceeds the remaining bytes raises an error — a broadcast ValueError when the
remaining content byte count differs from one and a struct.error when the
4-byte length read itself is short — except that with exactly one remaining
content byte the shape-(1,) numpy source broadcasts and the decode silently
returns a corrupted column whose last count is the full declared size.  In
indexed mode, "1-5" can fail (IndexError on an out-of-range record start) but
"4" can never fail: out-of-buffer content bounds are silently clamped. -/
theorem C2_amended_truncation_detection :
    (∀ (ss : List (List Nat)) (n : Nat) (t : List Nat) (fill : Nat),
        (∀ s ∈ ss, s.length < 2 ^ 32) → n < 2 ^ 32 → t.length < n → t.length ≠ 1 →
        uBasket15 (encRun15 ss ++ (lenPrefix15 n ++ t)) fill = .error .valueError)
    ∧ (∀ (ss : List (List Nat)) (n b fill : Nat),
        (∀ s ∈ ss, s.length < 2 ^ 32) → n < 2 ^ 32 → 1 < n →
        uBasket15 (encRun15 ss ++ (lenPrefix15 n ++ [b])) fill
          = .ok ⟨offsetsOf (ss.map (fun s => (s.length : Int)) ++ [(n : Int)]),
              ss.flatten ++ List.replicate
                (min n ((encRun15 ss ++ (lenPrefix15 n ++ [b])).length
                  - ss.flatten.length)) b⟩)
    ∧ (∀ (ss : List (List Nat)) (t4 : List Nat) (fill : Nat),
        (∀ s ∈ ss, s.length < 2 ^ 32) → t4.length < 4 →
        uBasket15 (encRun15 ss ++ (255 :: t4)) fill = .error .truncated)
    ∧ (∀ (n : Nat) (t : List Nat) (fill : Nat),
        n < 2 ^ 32 → t.length < n → t.length ≠ 1 →
        uBasket4 (be32 n ++ t) fill = .error .valueError)
    ∧ uBasket4 [0, 0, 0, 6, 8] 0 = .ok ⟨[0, 6], [8, 8, 8, 8, 8]⟩
    ∧ basketIndexed "1-5" 0 [] [0, 2] = .error .indexError
    ∧ (∀ (h : Nat) (data bo : List Nat), ∃ r, basketIndexed "4" h data bo = .ok r) := by
  exact ⟨uBasket15_trunc_err, uBasket15_trunc_bcast, uBasket15_prefix_err,
    uBasket4_trunc_err, by decide, by decide, basketIndexed4_ok⟩

theorem C2_witness :
    uBasket15 (encRun15 [[7]] ++ (lenPrefix15 3 ++ [])) 0 = .error .valueError
    ∧ uBasket15 (encRun15 [] ++ (lenPrefix15 3 ++ [8])) 0
        = .ok ⟨offsetsOf (([] : List (List Nat)).map (fun s => (s.length : Int))
              ++ [(3 : Int)]),
            ([] : List (List Nat)).flatten ++ List.replicate
              (min 3 ((encRun15 [] ++ (lenPrefix15 3 ++ [8])).length
                - ([] : List (List Nat)).flatten.length)) 8⟩
    ∧ uBasket15 (encRun15 [[7]] ++ (255 :: [9, 9])) 0 = .error .truncated
    ∧ uBasket4 (be32 3 ++ []) 0 = .error .valueError
    ∧ ∃ r, basketIndexed "4" 2 [1, 2, 3] [0, 5] = .ok r :=
  ⟨C2_amended_truncation_detection.1 [[7]] 3 [] 0 (by decide) (by decide) (by decide)
      (by decide),
    C2_amended_truncation_detection.2.1 [] 3 8 0 (by decide) (by decide) (by decide),
    C2_amended_truncation_detection.2.2.1 [[7]] [9, 9] 0 (by decide) (by decide),
    C2_amended_truncation_detection.2.2.2.1 3 [] 0 (by decide) (by decide) (by decide),
    C2_amended_truncation_detection.2.2.2.2.2.2 2 [1, 2, 3] [0, 5]⟩

/-- C3: under "1-5" the decoder reads one byte b; when b is not 255 the length
is b (0 to 254) with exactly one prefix byte, when b is 255 the length is the
next four bytes big-endian with exactly five prefix bytes; hence a canonical
record of length at least 255 consumes exactly 5 prefix bytes and one of
length below 255 exactly 1; and the unindexed decode loop factors through
exactly this prefix read. -/
theorem C3_prefix_semantics (b : Nat) (rest : List Nat) (hb : b < 256) :
    (b ≠ 255 → readPrefix15 (b :: rest) = .ok (b, 1) ∧ b ≤ 254)
    ∧ (∀ b1 b2 b3 b4 t, rest = b1 :: b2 :: b3 :: b4 :: t → b = 255 →
        readPrefix15 (b :: rest) = .ok (be32val b1 b2 b3 b4, 5))
    ∧ (∀ sz c, readPrefix15 (b :: rest) = .ok (sz, c) →
        (255 ≤ sz → c = 5) ∧ (c = 1 → sz ≤ 254))
    ∧ (∀ s : List Nat, s.length < 2 ^ 32 →
        readPrefix15 (encStr15 s) = .ok (s.length, if s.length < 255 then 1 else 5))
    ∧ decodeRun15 (b :: rest)
        = (match readPrefix15 (b :: rest) with
          | .error e => .error e
          | .ok sc =>
            if sc.1 ≤ (b :: rest).length - sc.2 then
              (decodeRun15 ((b :: rest).drop (sc.2 + sc.1))).map
                (fun ss => sliceL (b :: rest) sc.2 (sc.2 + sc.1) :: ss)
            else .error .truncated) := by
  refine ⟨?_, ?_, ?_, ?_, decodeRun15_readPrefix b rest⟩
  · intro hne
    constructor
    · show (if b = 255 then _ else _) = _
      rw [if_neg hne]
    · omega
  · intro b1 b2 b3 b4 t hrest hb255
    subst hrest
    subst hb255
    rfl
  · intro sz c hok
    by_cases hne : b = 255
    · subst hne
      rcases rest with _ | ⟨b1, r1⟩
      · have hz : readPrefix15 [255] = .error .truncated := rfl
        rw [hz] at hok
        exact absurd hok (by simp)
      rcases r1 with _ | ⟨b2, r2⟩
      · have hz : readPrefix15 [255, b1] = .error .truncated := rfl
        rw [hz] at hok
        exact absurd hok (by simp)
      rcases r2 with _ | ⟨b3, r3⟩
      · have hz : readPrefix15 [255, b1, b2] = .error .truncated := rfl
        rw [hz] at hok
        exact absurd hok (by simp)
      rcases r3 with _ | ⟨b4, r4⟩
      · have hz : readPrefix15 [255, b1, b2, b3] = .error .truncated := rfl
        rw [hz] at hok
        exact absurd hok (by simp)
      have hz : readPrefix15 (255 :: b1 :: b2 :: b3 :: b4 :: r4)
          = .ok (be32val b1 b2 b3 b4, 5) := rfl
      rw [hz] at hok
      injection hok with hpair
      have h5 : c = 5 := (Prod.mk.injEq _ _ _ _ ▸ hpair).2.symm ▸ rfl
      constructor
      · intro _
        have := congrArg Prod.snd hpair
        simpa using this.symm
      · intro hc1
        have := congrArg Prod.snd hpair
        simp at this
        omega
    · have hrp : readPrefix15 (b :: rest) = .ok (b, 1) := by
        show (if b = 255 then _ else _) = _
        rw [if_neg hne]
      rw [hrp] at hok
      injection hok with hpair
      have h1 := congrArg Prod.fst hpair
      have h2 := congrArg Prod.snd hpair
      simp at h1 h2
      constructor
      · intro h255
        omega
      · intro _
        omega
  · intro s hs
    by_cases hlt : s.length < 255
    · rw [show encStr15 s = s.length :: s from by simp [encStr15, lenPrefix15, hlt]]
      rw [if_pos hlt]
      show (if s.length = 255 then _ else _) = _
      rw [if_neg (by omega)]
    · rw [show encStr15 s = 255 :: (be32 s.length ++ s) from by
        simp [encStr15, lenPrefix15, hlt]]
      rw [if_neg hlt]
      have hz : readPrefix15 (255 :: (be32 s.length ++ s))
          = .ok (be32val (s.length / 2 ^ 24 % 256) (s.length / 2 ^ 16 % 256)
              (s.length / 2 ^ 8 % 256) (s.length % 256), 5) := rfl
      rw [hz, be32val_be32 s.length hs]

theorem C3_witness :
    ((7 : Nat) ≠ 255 → readPrefix15 (7 :: [1, 2, 3]) = .ok (7, 1) ∧ 7 ≤ 254)
    ∧ (∀ b1 b2 b3 b4 t, [1, 2, 3] = b1 :: b2 :: b3 :: b4 :: t → 7 = 255 →
        readPrefix15 (7 :: [1, 2, 3]) = .ok (be32val b1 b2 b3 b4, 5))
    ∧ (∀ sz c, readPrefix15 (7 :: [1, 2, 3]) = .ok (sz, c) →
        (255 ≤ sz → c = 5) ∧ (c = 1 → sz ≤ 254))
    ∧ (∀ s : List Nat, s.length < 2 ^ 32 →
        readPrefix15 (encStr15 s) = .ok (s.length, if s.length < 255 then 1 else 5))
    ∧ decodeRun15 (7 :: [1, 2, 3])
        = (match readPrefix15 (7 :: [1, 2, 3]) with
          | .error e => .error e
          | .ok sc =>
            if sc.1 ≤ (7 :: [1, 2, 3]).length - sc.2 then
              (decodeRun15 ((7 :: [1, 2, 3]).drop (sc.2 + sc.1))).map
                (fun ss => sliceL (7 :: [1, 2, 3]) sc.2 (sc.2 + sc.1) :: ss)
            else .error .truncated) :=
  C3_prefix_semantics 7 [1, 2, 3] (by decide)

/-- C4: the same logical strings decoded once through the external byte-index
path and once as a contiguous unindexed run produce the identical column. -/
theorem C4_indexed_unindexed_agree (ss : List (List Nat)) (h : Nat)
    (hwf : ∀ s ∈ ss, s.length < 2 ^ 32) :
    basket_array "1-5" h (encIndexed15 h ss) (some (byteOffs h 0 ss)) = .ok (column ss)
    ∧ basket_array "1-5" h (encRun15 ss) none = .ok (column ss) := by
  constructor
  · show basketIndexed "1-5" h (encIndexed15 h ss) (byteOffs h 0 ss) = _
    exact basketIndexed15_enc h ss
  · show (decodeRun15 (encRun15 ss)).map column = _
    rw [decodeRun15_encRun ss hwf]
    rfl

theorem C4_witness :
    basket_array "1-5" 2 (encIndexed15 2 [[65], [66, 66], []])
        (some (byteOffs 2 0 [[65], [66, 66], []])) = .ok (column [[65], [66, 66], []])
    ∧ basket_array "1-5" 2 (encRun15 [[65], [66, 66], []]) none
        = .ok (column [[65], [66, 66], []]) :=
  C4_indexed_unindexed_agree [[65], [66, 66], []] 2 (by decide)

/-- C5: the concrete three-chunk scenario with boundaries [0,3), [3,7), [7,10)
and request [2,8) yields exactly the six expected strings, in order (fill 37
plays the role of the uninitialized numpy buffer contents). -/
theorem C5_concrete_stitch :
    stitchColumn
        [column [[97], [98, 98], [99, 99, 99]],
         column [[100], [101, 101], [102, 102, 102], [103, 103, 103, 103]],
         column [[104], [105, 105], [106, 106, 106]]]
        [0, 3, 7, 10] 2 8 37
      = column [[99, 99, 99], [100], [101, 101], [102, 102, 102],
          [103, 103, 103, 103], [104]]
    ∧ toStrings (stitchColumn
        [column [[97], [98, 98], [99, 99, 99]],
         column [[100], [101, 101], [102, 102, 102], [103, 103, 103, 103]],
         column [[104], [105, 105], [106, 106, 106]]]
        [0, 3, 7, 10] 2 8 37)
      = [[99, 99, 99], [100], [101, 101], [102, 102, 102],
          [103, 103, 103, 103], [104]] := by
  constructor <;> decide

/-- C6 counterexample: a successful indexed decode of a truncated payload
returns a column whose final offset exceeds its content length, violating the
claimed unconditional output guarantee. -/
theorem C6_counterexample_clamped_column :
    basket_array "4" 0 [0, 0, 0, 5, 65, 66] (some [0, 9]) = .ok ⟨[0, 5], [65, 66]⟩
    ∧ (StringArray.mk [0, 5] [65, 66]).offsets.getLastD 0
        ≠ ((StringArray.mk [0, 5] [65, 66]).content.length : Int) := by
  decide

/-- C6 amended: every column returned by the line-faithful unindexed pipeline
has offsets of length count+1 starting at zero and non-decreasing, with the
final offset equal to the sum of the declared counts; but the content length
only equals that final offset when the declared total fits the buffer — the
broadcast of a truncated final record returns a column whose content is the
clamped minimum instead.  On every buffer the strict decoder accepts, the
pipeline, in either mode, returns exactly the column of the parsed strings
with all four invariants; the indexed decode of well-formed indexed input
satisfies them as well; and the stitched column restores the final-offset
invariant under the stitcher preconditions. -/
theorem C6_amended_output_guarantees :
    (∀ (data : List Nat) (fill : Nat) (counts : List Int) (out2 : List Nat) (len2 : Nat),
        uRunF readPrefix15 data.length data (List.replicate data.length fill) 0
            = .ok (counts, out2, len2) →
        uBasket15 data fill = .ok ⟨offsetsOf counts, out2.take len2⟩
        ∧ (offsetsOf counts).length = counts.length + 1
        ∧ (offsetsOf counts).getD 0 0 = 0
        ∧ List.Chain' (fun x y => x ≤ y) (offsetsOf counts)
        ∧ (offsetsOf counts).getLastD 0 = counts.sum
        ∧ ((out2.take len2).length : Int) ≤ counts.sum
        ∧ (counts.sum ≤ (data.length : Int) →
            ((out2.take len2).length : Int) = counts.sum))
    ∧ (∀ (h : Nat) (data : List Nat) (ss : List (List Nat)) (fill : Nat),
        decodeRun15 data = .ok ss →
        uBasket15 data fill = .ok (column ss)
        ∧ basket_array "1-5" h data none = .ok (column ss)
        ∧ (column ss).offsets.length = ss.length + 1
        ∧ (column ss).offsets.getD 0 0 = 0
        ∧ List.Chain' (fun x y => x ≤ y) (column ss).offsets
        ∧ (column ss).offsets.getLastD 0 = ((column ss).content.length : Int))
    ∧ (∀ (h : Nat) (data : List Nat) (ss : List (List Nat)) (fill : Nat),
        decodeRun4 data = .ok ss →
        uBasket4 data fill = .ok (column ss)
        ∧ basket_array "4" h data none = .ok (column ss))
    ∧ (∀ (h : Nat) (ss : List (List Nat)),
        basket_array "1-5" h (encIndexed15 h ss) (some (byteOffs h 0 ss))
            = .ok (column ss)
        ∧ (column ss).offsets.length = ss.length + 1
        ∧ (column ss).offsets.getD 0 0 = 0
        ∧ List.Chain' (fun x y => x ≤ y) (column ss).offsets
        ∧ (column ss).offsets.getLastD 0 = ((column ss).content.length : Int))
    ∧ (∀ (ss : List (List Nat)) (p : List (List (List Nat))) (es et : Nat) (fill : Int),
        p.flatten = ss → es < et → et ≤ ss.length →
        (stitchColumn (p.map column) (0 :: stopsFrom 0 p) es et fill).offsets.getLastD 0
          = (((stitchColumn (p.map column) (0 :: stopsFrom 0 p) es et fill).content.length
              : Nat) : Int)) := by
  refine ⟨?_, ?_, ?_, ?_, ?_⟩
  · intro data fill counts out2 len2 h
    obtain ⟨h1, h2, h3⟩ := uRunF_inv readPrefix15 data.length data
      (List.replicate data.length fill) 0 counts out2 len2 h
    have hsum : (len2 : Int) = counts.sum := by simpa using h2
    have hN : out2.length = data.length := by
      rw [h3, List.length_replicate]
    refine ⟨?_, offsetsOf_length counts, by simp [offsetsOf], ?_, ?_, ?_, ?_⟩
    · show (uRunF readPrefix15 data.length data (List.replicate data.length fill) 0).map
          (fun r => (⟨offsetsOf r.1, r.2.1.take r.2.2⟩ : StringArray)) = _
      rw [h]
      rfl
    · show List.Chain' (fun x y => x ≤ y) (0 :: cumsums 0 counts)
      exact chain'_cons_cumsums 0 counts h1
    · rw [getLastD_getD (offsetsOf counts) 0 0 (by simp [offsetsOf])]
      rw [offsetsOf_length]
      simp only [Nat.add_sub_cancel]
      rw [offsetsOf_getD counts counts.length (le_refl _)]
      rw [List.take_length]
    · simp only [List.length_take]
      rw [← hsum]
      exact_mod_cast Nat.min_le_left len2 out2.length
    · intro hle
      simp only [List.length_take]
      rw [← hsum] at hle ⊢
      rw [hN]
      rw [min_eq_left (by exact_mod_cast hle)]
  · intro h data ss fill hok
    obtain ⟨i1, i2, i3, i4⟩ := column_invariants ss
    refine ⟨uBasket15_agree data ss fill hok, ?_, i1, i2, i3, i4⟩
    show (decodeRun15 data).map column = _
    rw [hok]
    rfl
  · intro h data ss fill hok
    refine ⟨uBasket4_agree data ss fill hok, ?_⟩
    show (decodeRun4 data).map column = _
    rw [hok]
    rfl
  · intro h ss
    obtain ⟨i1, i2, i3, i4⟩ := column_invariants ss
    exact ⟨basketIndexed15_enc h ss, i1, i2, i3, i4⟩
  · intro ss p es et fill hp h1 h2
    rw [stitch_eq_column ss p es et fill hp h1 h2]
    exact (column_invariants (sliceL ss es et)).2.2.2

theorem C6_witness :
    (uBasket15 [3, 8] 0 = .ok ⟨offsetsOf [3], ([8, 8] : List Nat).take 3⟩
      ∧ (offsetsOf [3]).length = ([3] : List Int).length + 1
      ∧ (offsetsOf [3]).getD 0 0 = 0
      ∧ List.Chain' (fun x y => x ≤ y) (offsetsOf [3])
      ∧ (offsetsOf [3]).getLastD 0 = ([3] : List Int).sum
      ∧ ((([8, 8] : List Nat).take 3).length : Int) ≤ ([3] : List Int).sum
      ∧ (([3] : List Int).sum ≤ (([3, 8] : List Nat).length : Int) →
          ((([8, 8] : List Nat).take 3).length : Int) = ([3] : List Int).sum))
    ∧ (uBasket15 (encRun15 [[9], []]) 0 = .ok (column [[9], []])
      ∧ basket_array "1-5" 0 (encRun15 [[9], []]) none = .ok (column [[9], []])
      ∧ (column [[9], []]).offsets.length = [[9], []].length + 1
      ∧ (column [[9], []]).offsets.getD 0 0 = 0
      ∧ List.Chain' (fun x y => x ≤ y) (column [[9], []]).offsets
      ∧ (column [[9], []]).offsets.getLastD 0 = ((column [[9], []]).content.length : Int))
    ∧ (stitchColumn ([[[9]], [[]]].map column) (0 :: stopsFrom 0 [[[9]], [[]]]) 0 2 4).offsets.getLastD 0
        = (((stitchColumn ([[[9]], [[]]].map column) (0 :: stopsFrom 0 [[[9]], [[]]]) 0 2 4).content.length
            : Nat) : Int) :=
  ⟨C6_amended_output_guarantees.1 [3, 8] 0 [3] [8, 8] 3 (by decide),
    C6_amended_output_guarantees.2.1 0 (encRun15 [[9], []]) [[9], []] 0 (by decide),
    C6_amended_output_guarantees.2.2.2.2 [[9], []] [[[9]], [[]]] 0 2 4 rfl (by decide)
      (by decide)⟩

/-- C7: a degenerate request (entry_stop at or before entry_start) returns the
empty column with the single zero offset and empty content, independently of
every chunk, boundary list and fill value. -/
theorem C7_degenerate_request {β R : Type} (baskets baskets2 : List StringArray)
    (es et : Nat) (eo eo2 : List Nat) (fill fill2 : Int) (branch : β)
    (fz : StringArray → β → Nat → Nat → R) (h : et ≤ es) :
    final_array baskets es et eo fill branch fz = Sum.inl ⟨[0], []⟩
    ∧ final_array baskets es et eo fill branch fz
        = final_array baskets2 es et eo2 fill2 branch fz := by
  have e1 : final_array baskets es et eo fill branch fz = Sum.inl ⟨[0], []⟩ := by
    show (if et ≤ es then _ else _) = _
    rw [if_pos h]
  have e2 : final_array baskets2 es et eo2 fill2 branch fz = Sum.inl ⟨[0], []⟩ := by
    show (if et ≤ es then _ else _) = _
    rw [if_pos h]
  exact ⟨e1, by rw [e1, e2]⟩

theorem C7_witness :
    final_array (β := Unit) (R := Nat) [column [[1]]] 3 3 [0, 1] 5 ()
        (fun _ _ _ _ => 42) = Sum.inl ⟨[0], []⟩
    ∧ final_array (β := Unit) (R := Nat) [column [[1]]] 3 3 [0, 1] 5 ()
        (fun _ _ _ _ => 42)
      = final_array (β := Unit) (R := Nat) [] 3 3 [7] 9 () (fun _ _ _ _ => 42) :=
  C7_degenerate_request [column [[1]]] [] 3 3 [0, 1] [7] 5 9 ()
    (fun _ _ _ _ => 42) (by decide)

/-- C8 counterexample: with a finalize operation that returns 42 on every
input, the degenerate request returns the raw empty column rather than
finalize's result, so final_array does not hand every request to finalize. -/
theorem C8_counterexample_degenerate_skips_finalize :
    final_array (β := Unit) (R := Nat) [] 1 0 [0] 0 () (fun _ _ _ _ => 42)
      = Sum.inl ⟨[0], []⟩
    ∧ (Sum.inl (StringArray.mk [0] []) : StringArray ⊕ Nat) ≠ Sum.inr 42 := by
  constructor
  · rfl
  · simp

/-- C8 amended: for every non-degenerate request the stitched column is handed
to finalize together with the branch identity and the requested range, and
finalize's result is returned unchanged. -/
theorem C8_amended_finalize_passthrough {β R : Type} (baskets : List StringArray)
    (es et : Nat) (eo : List Nat) (fill : Int) (branch : β)
    (fz : StringArray → β → Nat → Nat → R) (h : es < et) :
    final_array baskets es et eo fill branch fz
      = Sum.inr (fz (stitchColumn baskets eo es et fill) branch es et) := by
  show (if et ≤ es then _ else _) = _
  rw [if_neg (by omega)]

theorem C8_witness :
    final_array (β := Unit) (R := Nat) [column [[1]]] 0 1 [0, 1] 3 ()
        (fun sa _ a b => sa.content.length + a + b)
      = Sum.inr ((fun (sa : StringArray) (_ : Unit) (a b : Nat) =>
          sa.content.length + a + b)
          (stitchColumn [column [[1]]] [0, 1] 0 1 3) () 0 1) :=
  C8_amended_finalize_passthrough [column [[1]]] 0 1 [0, 1] 3 ()
    (fun sa _ a b => sa.content.length + a + b) (by decide)

/-- C9: construction with any length_bytes mode other than "1-5" or "4" fails
eagerly with ValueError, and a successfully constructed interpretation can
never produce the decode-time AssertionError for an unrecognized mode. -/
theorem C9_mode_validation :
    (∀ (hb : Nat) (lb : String), ¬ lb = "1-5" → ¬ lb = "4" →
        AsStrings.make hb lb = .error ())
    ∧ (∀ (hb : Nat) (lb : String) (i : AsStrings), AsStrings.make hb lb = .ok i →
        ∀ (data : List Nat) (bo : Option (List Nat)),
          basket_array i.length_bytes i.header_bytes data bo ≠ .error .assertion) := by
  constructor
  · intro hb lb h1 h2
    show (if lb = "1-5" ∨ lb = "4" then _ else _) = _
    rw [if_neg (not_or.mpr ⟨h1, h2⟩)]
  · intro hb lb i hok data bo
    have hok2 : (if lb = "1-5" ∨ lb = "4" then Except.ok (⟨hb, lb⟩ : AsStrings)
        else Except.error ()) = Except.ok i := hok
    have hmode : i.length_bytes = "1-5" ∨ i.length_bytes = "4" := by
      by_cases hc : lb = "1-5" ∨ lb = "4"
      · rw [if_pos hc] at hok2
        injection hok2 with hi
        rw [← hi]
        exact hc
      · rw [if_neg hc] at hok2
        exact absurd hok2 (by simp)
    cases bo with
    | none =>
      rcases hmode with hm | hm <;> rw [hm]
      · show (decodeRun15 data).map column ≠ _
        intro hcontra
        cases hres : decodeRun15 data with
        | ok v =>
          rw [hres] at hcontra
          simp [Except.map] at hcontra
        | error e =>
          rw [hres] at hcontra
          simp only [Except.map] at hcontra
          injection hcontra with he
          apply decodeRun15F_no_assert data.length data
          show decodeRun15 data = _
          rw [hres, he]
      · show (decodeRun4 data).map column ≠ _
        intro hcontra
        cases hres : decodeRun4 data with
        | ok v =>
          rw [hres] at hcontra
          simp [Except.map] at hcontra
        | error e =>
          rw [hres] at hcontra
          simp only [Except.map] at hcontra
          injection hcontra with he
          apply decodeRun4F_no_assert data.length data
          show decodeRun4 data = _
          rw [hres, he]
    | some bo2 =>
      rcases hmode with hm | hm <;> rw [hm]
      · exact basketIndexed_no_assert "1-5" i.header_bytes data bo2 (Or.inl rfl)
      · exact basketIndexed_no_assert "4" i.header_bytes data bo2 (Or.inr rfl)

theorem C9_witness :
    AsStrings.make 0 "2-6" = .error ()
    ∧ basket_array (AsStrings.mk 0 "1-5").length_bytes (AsStrings.mk 0 "1-5").header_bytes
        [4, 9] none ≠ .error .assertion :=
  ⟨C9_mode_validation.1 0 "2-6" (by decide) (by decide),
    C9_mode_validation.2 0 "1-5" ⟨0, "1-5"⟩ rfl [4, 9] none⟩

/-- C10: every stitched column of a valid covered request has first offset
exactly zero, for every fill value of the uninitialized output buffer. -/
theorem C10_stitched_first_offset_zero (ss : List (List Nat))
    (p : List (List (List Nat))) (es et : Nat) (fill : Int)
    (hp : p.flatten = ss) (h1 : es < et) (h2 : et ≤ ss.length) :
    (stitchColumn (p.map column) (0 :: stopsFrom 0 p) es et fill).offsets.getD 0 0
      = 0 := by
  rw [stitch_eq_column ss p es et fill hp h1 h2]
  simp [column, offsetsOf]

theorem C10_witness :
    (stitchColumn ([[[1]], [[2, 2], [3]]].map column)
        (0 :: stopsFrom 0 [[[1]], [[2, 2], [3]]]) 1 3 37).offsets.getD 0 0 = 0 :=
  C10_stitched_first_offset_zero [[1], [2, 2], [3]] [[[1]], [[2, 2], [3]]] 1 3 37
    rfl (by decide) (by decide)

end Uproot
